import Mathlib

/-!
Verification of the rooted-tree / vm-vector library (degski/rooted_tree).

The development shallowly embeds the data structures of
`src/include/rooted_tree.hpp` and `src/include/vm_backed.hpp`.

Node ids (`sax::nid`) are C++ `int`s; every id the sequential code ever
stores is non-negative (0 is the invalid/sentinel id, fresh ids are vector
sizes), so ids are modelled as `Nat`.  The id 0 is the sentinel, 1 the root.
The payload of a node is irrelevant to every structural claim, so a node is
modelled by its intrusive hook alone (`rooted_tree_base_hook<false>` /
`rooted_tree_hook`, fields `up`, `prev`, `tail`, `fan`; the first header
iteration names the count `size`).  A tree is the node vector: a list of
hooks indexed by id, slot 0 being the sentinel pushed by the constructor.
-/

namespace RootedTree

/-- The intrusive hook (`rooted_tree_base_hook<false>` of rooted_tree.hpp):
`up` parent id, `prev` previous sibling, `tail` most recent child, `fan`
child count.  All fields default to zero (`nid{0}` / `0`). -/
structure Hook where
  up   : Nat
  prev : Nat
  tail : Nat
  fan  : Nat
  deriving DecidableEq

/-- The default-constructed hook: `up = prev = tail = nid{0}`, `fan = 0`. -/
def Hook.dflt : Hook := { up := 0, prev := 0, tail := 0, fan := 0 }

/-- The node store (`nodes` vector); index = NodeID, slot 0 = sentinel. -/
abbrev Tree := List Hook

/-- `nodes[i]` — unchecked indexing `operator[]`; reads outside the store
never happen in the verified executions (a separate checked embedding for
claim C10 makes the bounds explicit). -/
def hk (t : Tree) (i : Nat) : Hook := t.getD i Hook.dflt

/-- Write slot `i` (a `nodes[i].field = v` store). -/
def setHk (t : Tree) (i : Nat) (h : Hook) : Tree := t.set i h

/-- The freshly constructed tree (`rooted_tree_base()`): the constructor
reserves capacity and pushes the value-initialized sentinel node 0. -/
def mkTree : Tree := [Hook.dflt]

/-- `insert (pid, node)` of the sequential tree
(`rooted_tree_base::insert`, sequential branch): the new id is the current
size, the node (with its whole hook) is pushed, then
`target.up = source_; target.prev = std::exchange(source.tail, id);
source.fan += 1`.  The field writes appear in source order (the exchange
stores the new tail before `prev` receives the old one). -/
def insert (t : Tree) (pid : Nat) (node : Hook) : Nat × Tree :=
  let id := t.length
  let t1 := t ++ [node]
  let t2 := setHk t1 id { hk t1 id with up := pid }
  let oldTail := (hk t2 pid).tail
  let t3 := setHk t2 pid { hk t2 pid with tail := id }
  let t4 := setHk t3 id { hk t3 id with prev := oldTail }
  let t5 := setHk t4 pid { hk t4 pid with fan := (hk t4 pid).fan + 1 }
  (id, t5)

/-- `emplace (pid, args...)` (`rooted_tree_base::emplace`, sequential
branch): identical to `insert` except that the pushed node is constructed
in place, so its hook part carries the default member initializers
(`Hook.dflt`). -/
def emplace (t : Tree) (pid : Nat) : Nat × Tree := insert t pid Hook.dflt

/-- The tree after an `emplace` (discarding the returned id). -/
def emplaceT (t : Tree) (pid : Nat) : Tree := (emplace t pid).2

/-- Follow the `prev` field `k` times starting from id `i`
(the `child = tree[child.id].prev` walk of the sibling list). -/
def iterPrev (t : Tree) : Nat → Nat → Nat
  | 0, i => i
  | k + 1, i => iterPrev t k (hk t i).prev

/-- `PrevChain t p s l`: starting at id `s` and repeatedly following
`prev`, the walk visits exactly the ids in `l` (in order), every visited
node's `up` equals `p`, and the walk terminates at the invalid id 0. -/
inductive PrevChain (t : Tree) (p : Nat) : Nat → List Nat → Prop
  | nil : PrevChain t p 0 []
  | cons (i : Nat) (l : List Nat) (hi : i ≠ 0) (hup : (hk t i).up = p)
      (htl : PrevChain t p ((hk t i).prev) l) : PrevChain t p i (i :: l)

/-- Trees reachable from the freshly constructed tree by a finite sequence
of `insert`/`emplace` calls whose parent is already in the store.  (An
`insert` of a default-hooked node has exactly the hook effect of `emplace`,
see `insert` and `emplace`.) -/
inductive Reachable : Tree → Prop
  | mk : Reachable mkTree
  | step (t : Tree) (pid : Nat) (ht : Reachable t) (hpid : pid < t.length) :
      Reachable (emplaceT t pid)

/-- Basic structural bounds maintained by the sequential tree: the sentinel
is self-parented and first, and every other node's parent and previous
sibling were allocated strictly earlier. -/
def BaseInv (t : Tree) : Prop :=
  0 < t.length ∧ (hk t 0).up = 0 ∧ (hk t 0).prev = 0 ∧
    ∀ i, 1 ≤ i → i < t.length → (hk t i).up < i ∧ (hk t i).prev < i

/-- Sibling-list invariant: for every node `p` (the sentinel included), the
`prev`-walk from `p.tail` terminates at the invalid id after exactly
`p.fan` steps, visits ids in strictly decreasing order, and visits exactly
the nodes whose `up` is `p`. -/
def SibInv (t : Tree) : Prop :=
  ∀ p, p < t.length →
    ∃ l, PrevChain t p ((hk t p).tail) l ∧ l.length = (hk t p).fan ∧
      l.Pairwise (fun a b => b < a) ∧
      ∀ i, i ∈ l ↔ (1 ≤ i ∧ i < t.length ∧ (hk t i).up = p)

def Inv (t : Tree) : Prop := BaseInv t ∧ SibInv t

/-- Faults of the checked embedding of the sequential `emplace`/`insert`
path (`insert_impl`, sequential branch): the `assert` on a second root, or
an out-of-bounds `nodes[pid_.id]` access. -/
inductive EmplaceFault
  | assertSecondRoot
  | outOfBounds
  deriving DecidableEq

/-- Checked embedding of the sequential `emplace` path: push the new slot,
run the `assert( invalid != pid_ or nodes[invalid.id].tail.is_invalid() )`
of `insert_impl`, then perform the parent accesses
(`std::exchange(nodes[pid_.id].tail, cid)`, `nodes[pid_.id].fan += 1`)
with the bounds of the embedded indexing made explicit.  The parent id is
an `int`, so it is taken as `Int` here; the only guard before the parent
access is the assert. -/
def emplaceChecked (t : Tree) (pid : Int) : Except EmplaceFault (Nat × Tree) :=
  let id := t.length
  let t1 := t ++ [Hook.dflt]
  if pid = 0 ∧ (hk t1 0).tail ≠ 0 then .error .assertSecondRoot
  else if 0 ≤ pid ∧ pid.toNat < t1.length then
    let p := pid.toNat
    let t2 := setHk t1 id { hk t1 id with up := p }
    let oldTail := (hk t2 p).tail
    let t3 := setHk t2 p { hk t2 p with tail := id }
    let t4 := setHk t3 id { hk t3 id with prev := oldTail }
    let t5 := setHk t4 p { hk t4 p with fan := (hk t4 p).fan + 1 }
    .ok (id, t5)
  else .error .outOfBounds

/-- The `for (child = start; child.is_valid(); child = child.prev)` walk,
computed with explicit fuel (any fuel at least the walk's length yields the
walk itself, see `PrevChain.chainAux_eq`). -/
def chainAux (t : Tree) : Nat → Nat → List Nat
  | _, 0 => []
  | 0, Nat.succ i => [Nat.succ i]
  | Nat.succ fuel, Nat.succ i =>
      Nat.succ i :: chainAux t fuel ((hk t (Nat.succ i)).prev)

/-- The sibling walk starting at id `s` (fuel `t.length` suffices for every
well-formed tree). -/
def siblings (t : Tree) (s : Nat) : List Nat := chainAux t t.length s

/-- One level of the BFS in `height`: dequeue every node of the current
level and enqueue its children in `tail`→`prev` order. -/
def levelKids (t : Tree) (q : List Nat) : List Nat :=
  q.flatMap fun p => siblings t ((hk t p).tail)

/-- The `while ( count )` loop of `height` (rooted_tree.hpp, third
iteration): process one whole level per round; afterwards `count` is the
new queue length, `max_width` is raised to it if larger, and `depth` is
incremented.  Fuel only caps the number of levels. -/
def heightLoop (t : Tree) : Nat → List Nat → Nat → Nat → Nat × Nat
  | 0, _, maxW, depth => (depth, maxW)
  | _ + 1, [], maxW, depth => (depth, maxW)
  | fuel + 1, p :: q, maxW, depth =>
    let nq := levelKids t (p :: q)
    let cnt := nq.length
    heightLoop t fuel nq (if maxW < cnt then cnt else maxW) (depth + 1)

/-- `height ( rid, &width )`: returns (depth, max_width). -/
def heightWidth (t : Tree) (rid : Nat) : Nat × Nat :=
  heightLoop t (t.length + 1) [rid] 0 0

/-- The running state of `make_sub_impl`'s BFS: the `index` mapping table
(0 = unassigned, `root_` premapped to 1), the next free sub-tree id
(`sub_tree_size`), and the sub-tree under construction. -/
structure MsState where
  index : List Nat
  next  : Nat
  sub   : Tree
  deriving DecidableEq

/-- One dequeued parent of `make_sub_impl`: scan the parent's children
(`tail`→`prev`); each not-yet-indexed child receives the next sub-tree id
and is enqueued; then
`tree.insert ( index[ nodes[parent].up ], std::move ( nodes[parent] ) )`
moves the parent into the sub-tree — the moved hook keeps its (now stale)
`tail` and `fan`. -/
def msParent (t : Tree) (s : MsState × List Nat) (parent : Nat) : MsState × List Nat :=
  let cs := siblings t ((hk t parent).tail)
  let scan := cs.foldl
    (fun (acc : List Nat × Nat × List Nat) c =>
      if acc.1.getD c 0 = 0 then (acc.1.set c acc.2.1, acc.2.1 + 1, acc.2.2 ++ [c])
      else acc)
    (s.1.index, s.1.next, s.2)
  ({ index := scan.1, next := scan.2.1,
     sub := (insert s.1.sub (scan.1.getD ((hk t parent).up) 0) (hk t parent)).2 },
   scan.2.2)

/-- Process one whole BFS level of `make_sub_impl`. -/
def msLevel (t : Tree) (s : MsState) (level : List Nat) : MsState × List Nat :=
  level.foldl (msParent t) (s, [])

/-- The level loop of `make_sub_impl`, including the
`if ( max_depth_ ) if ( max_depth_ == depth++ ) break;` cut-off. -/
def msLoop (t : Tree) : Nat → Nat → Nat → List Nat → MsState → Tree
  | 0, _, _, _, s => s.sub
  | _ + 1, _, _, [], s => s.sub
  | fuel + 1, maxDepth, depth, p :: q, s =>
    let r := msLevel t s (p :: q)
    if maxDepth ≠ 0 ∧ maxDepth = depth then r.1.sub
    else msLoop t fuel maxDepth (depth + 1) r.2 r.1

/-- `make_sub_impl ( max_depth_, root_ )`. -/
def make_sub_impl (t : Tree) (maxDepth rootArg : Nat) : Tree :=
  msLoop t (t.length + 1) maxDepth 1 [rootArg]
    { index := (List.replicate t.length 0).set rootArg 1, next := 2, sub := mkTree }

/-- `make_sub ( max_depth_, root_ )` as written in the source: the
`(not max_depth_ and root == root_)` case is a `return;` with no value in
a value-returning function (modelled as `none`), and the recursive call
passes the constant `root` (= 1), not the argument `root_`. -/
def make_sub (t : Tree) (maxDepth rootArg : Nat) : Option Tree :=
  if maxDepth = 0 ∧ rootArg = 1 then none
  else some (make_sub_impl t maxDepth 1)

/-- Big-step relation for the child loop of `flatten` (first header
iteration): `for ( ; child.is_valid ( ); child = nodes[child.id].prev )
sub_tree.emplace ( root, std::move ( nodes[child.id] ) );`.  The emplace
move-constructs the node, hook included, then relinks `up`/`prev` — i.e.
it is `insert` of the old child's hook under the new root.  A derivation
exists exactly for the terminating runs of the loop. -/
inductive FlattenLoop (t : Tree) : Tree → Nat → Tree → Prop
  | done (sub : Tree) : FlattenLoop t sub 0 sub
  | step (sub : Tree) (child : Nat) (u : Tree) (hc : child ≠ 0)
      (hrec : FlattenLoop t (insert sub 1 (hk t child)).2 ((hk t child).prev) u) :
      FlattenLoop t sub child u

/-- The sub-tree `flatten` starts from:
`rooted_tree sub_tree { std::move ( nodes[root.id] ) }` — a fresh tree
whose root is the moved old root (hook included). -/
def flattenInit (t : Tree) : Tree := (insert mkTree 0 (hk t 1)).2

/-- `flatten` relates `t` to `u` iff the child loop, started at the old
root's `tail`, terminates with sub-tree `u` (which is then swapped in). -/
def FlattenRel (t u : Tree) : Prop :=
  FlattenLoop t (flattenInit t) ((hk t 1).tail) u

/-- A root with a single child: the result of `rooted_tree tree(..)`,
`tree.emplace(root, ..)`. -/
def chainTree2 : Tree := emplaceT (emplaceT mkTree 0) 1

/-- What one `flatten` of `chainTree2` produces (computed below): the
moved hooks keep stale `tail`/`fan`, so slot 2's `prev` is 2 — a
self-loop in the sibling list. -/
def flatBroken : Tree :=
  [{ up := 0, prev := 0, tail := 1, fan := 1 },
   { up := 0, prev := 0, tail := 2, fan := 2 },
   { up := 1, prev := 2, tail := 0, fan := 0 }]

/-- `vm_vector` constants (vm_backed.hpp): the OS page granularity
(64 KiB) and the commit chunk `alloc_page_size_b` (1600 pages = 100 MiB). -/
def os_vm_page_size_b : Nat := 65536

def alloc_page_size_b : Nat := 1600 * 65536

/-- `required_b` / `capacity_b`: byte count rounded up to the OS page
(`req % page ? ((req + page) / page) * page : req`). -/
def roundPageB (req : Nat) : Nat :=
  if req % os_vm_page_size_b = 0 then req
  else (req + os_vm_page_size_b) / os_vm_page_size_b * os_vm_page_size_b

/-- `capacity_b ( )` of `vm_vector<T, Capacity>` for element size `es`. -/
def capacity_b (cap es : Nat) : Nat := roundPageB (cap * es)

/-- The state of a `vm_vector<T, Capacity>`: element count (`m_end -
m_begin`), committed bytes (`m_committed_b`), the stored elements
(payloads abstracted to `Nat`) and the reservation base address
(`m_begin`, abstract).  `m_begin` is written only by the constructor and
the destructor. -/
structure VmVec where
  len        : Nat
  committedB : Nat
  content    : List Nat
  base       : Nat
  deriving DecidableEq

/-- A freshly constructed vector: the range is reserved (no bytes
committed), size 0. -/
def vmInit (base : Nat) : VmVec :=
  { len := 0, committedB := 0, content := [], base := base }

/-- Failures of an append.  `allocationFailure` is the `std::bad_alloc`
thrown when `VirtualAlloc(MEM_COMMIT)` is refused — in this model the host
grants every non-empty page-aligned commit inside the reservation, so it
occurs exactly for the zero-byte request `cib - m_committed_b == 0`.
`accessViolation` marks a placement-new beyond the committed range (it is
unreachable in every run verified below). -/
inductive VmError
  | allocationFailure
  | accessViolation
  deriving DecidableEq

/-- `vm_vector::emplace_back` (vm_backed.hpp lines 145-154): if the used
bytes equal the committed bytes, commit
`min(m_committed_b ? m_committed_b + chunk : chunk, capacity_b())`;
a zero-byte commit request fails with `bad_alloc`; then construct in place
at `m_end++`.  There is no check against the logical capacity `Capacity`. -/
def emplace_back (cap es : Nat) (v : VmVec) (x : Nat) : Except VmError VmVec :=
  if v.len * es = v.committedB then
    if min (if v.committedB = 0 then alloc_page_size_b
            else v.committedB + alloc_page_size_b) (capacity_b cap es) - v.committedB = 0 then
      Except.error VmError.allocationFailure
    else
      if (v.len + 1) * es ≤
          min (if v.committedB = 0 then alloc_page_size_b
               else v.committedB + alloc_page_size_b) (capacity_b cap es) then
        Except.ok { len := v.len + 1,
                    committedB := min (if v.committedB = 0 then alloc_page_size_b
                                       else v.committedB + alloc_page_size_b) (capacity_b cap es),
                    content := v.content ++ [x], base := v.base }
      else Except.error VmError.accessViolation
  else
    if (v.len + 1) * es ≤ v.committedB then
      Except.ok { len := v.len + 1, committedB := v.committedB,
                  content := v.content ++ [x], base := v.base }
    else Except.error VmError.accessViolation

/-- `push_back` forwards to `emplace_back` (copy/move construction does
not affect the abstracted payload). -/
def push_back (cap es : Nat) (v : VmVec) (x : Nat) : Except VmError VmVec :=
  emplace_back cap es v x

/-- `pop_back`: destroy the tail element, decrement the size; the base
address and the committed pages are untouched. -/
def pop_back (v : VmVec) : VmVec :=
  { v with len := v.len - 1, content := v.content.dropLast }

/-- `n` successive appends. -/
def appendN (cap es : Nat) : Nat → VmVec → Except VmError VmVec
  | 0, v => .ok v
  | n + 1, v =>
    match emplace_back cap es v v.len with
    | .error e => .error e
    | .ok v' => appendN cap es n v'

/-- Size of an append result (0 for an error, which leaves no vector). -/
def lenOfResult : Except VmError VmVec → Nat
  | .ok v => v.len
  | .error _ => 0

/-- Extract a successful result (default for the error case). -/
def getOk (r : Except VmError VmVec) (d : VmVec) : VmVec :=
  match r with
  | .ok v => v
  | .error _ => d

/-- Reachable-state invariant of `vm_vector` for element size `es`: the
used bytes never exceed the committed bytes, the committed bytes never
exceed the reserved bytes, and (as `es` divides the page size) the
committed byte count is a multiple of `es`. -/
def VmInv (cap es : Nat) (v : VmVec) : Prop :=
  v.len * es ≤ v.committedB ∧ v.committedB ≤ capacity_b cap es ∧
    es ∣ v.committedB ∧ v.content.length = v.len

/-- One advance of the depth-first cursor (`depth_iterator::operator++`):
if the pending stack is non-empty, pop it (the stack top is the list
head) and push the popped node's children in sibling-list order
(`tail` first, so the oldest child ends on top); an empty stack makes the
cursor invalid (`node = 0`). -/
def dnext (t : Tree) : List Nat × Nat → List Nat × Nat
  | ([], _) => ([], 0)
  | (w :: s, _) => ((siblings t ((hk t w).tail)).reverse ++ s, w)

/-- The freshly constructed depth-first cursor at node `x`
(`depth_iterator(tree, x)`): current node `x`, its children pushed. -/
def dinit (t : Tree) (x : Nat) : List Nat × Nat :=
  ((siblings t ((hk t x).tail)).reverse, x)

/-- The ids the cursor visits, current node first (`fuel` caps the number
of advances; every verified run uses enough fuel to finish). -/
def dvisited (t : Tree) : Nat → List Nat × Nat → List Nat
  | 0, _ => []
  | fuel + 1, st => if st.2 = 0 then [] else st.2 :: dvisited t fuel (dnext t st)

/-- Stack-only form of the visit sequence: what the cursor still yields
when the pending stack is `s`. -/
def drain (t : Tree) : Nat → List Nat → List Nat
  | 0, _ => []
  | _ + 1, [] => []
  | fuel + 1, w :: s =>
      w :: drain t fuel ((siblings t ((hk t w).tail)).reverse ++ s)

/-- The depth-first pre-order listing of the subtree under `x` (oldest
child first, matching the cursor's pop order), with explicit fuel. -/
def subtreeListAux (t : Tree) : Nat → Nat → List Nat
  | 0, _ => []
  | fuel + 1, x =>
      x :: (siblings t ((hk t x).tail)).reverse.flatMap (subtreeListAux t fuel)

/-- The subtree listing; fuel `t.length` suffices on well-formed trees
because ids strictly increase from parent to child. -/
def descList (t : Tree) (x : Nat) : List Nat := subtreeListAux t t.length x

/-- The complete run of the depth-first cursor started at `x`. -/
def dfsRun (t : Tree) (x : Nat) : List Nat := dvisited t (t.length + 1) (dinit t x)

/-- `UpPath t n l`: following `up` from `n` visits exactly `l` and ends at
the sentinel id 0.  A node `n` lies in the subtree of `x` iff `x` is on
`n`'s up-path. -/
inductive UpPath (t : Tree) : Nat → List Nat → Prop
  | nil : UpPath t 0 []
  | cons (i : Nat) (l : List Nat) (hi : i ≠ 0) (htl : UpPath t ((hk t i).up) l) :
      UpPath t i (i :: l)

/-- Atomic events of the concurrent insert protocol
(`insert`/`emplace` + `insert_impl`, concurrent branch): `alloc` is the
slot allocation — the `push_back`/`grow` performed under the store lock,
yielding a zero-initialized slot (tbb `zero_allocator`) whose id is the
size at allocation; `link cid pid` is the thread's linking step —
`cnode_->up = pid_` followed by, under the parent's spin lock,
`cnode_->prev = std::exchange ( nodes[pid_.id].tail, cid_ );
nodes[pid_.id].fan++`. -/
inductive CEvent
  | alloc
  | link (cid pid : Nat)

/-- Effect of one event on the store. -/
def cstep (t : Tree) : CEvent → Tree
  | .alloc => t ++ [Hook.dflt]
  | .link cid pid =>
    let t1 := setHk t cid { hk t cid with up := pid }
    let oldTail := (hk t1 pid).tail
    let t2 := setHk t1 pid { hk t1 pid with tail := cid }
    let t3 := setHk t2 cid { hk t2 cid with prev := oldTail }
    setHk t3 pid { hk t3 pid with fan := (hk t3 pid).fan + 1 }

/-- Run a schedule (one interleaving of the producers' events). -/
def crun (t : Tree) : List CEvent → Tree
  | [] => t
  | e :: es => crun (cstep t e) es

/-- Well-formed schedules, tracking the store size and the
allocated-but-not-yet-linked ids: every insert allocates (receiving the
current size as id) before it links; each id is linked exactly once, under
a parent that existed when it was chosen (so `pid < cid`) and is not the
sentinel; when all producers have joined, nothing is left pending. -/
def CWF : Nat → List Nat → List CEvent → Prop
  | _, pending, [] => pending = []
  | size, pending, CEvent.alloc :: es => CWF (size + 1) (pending ++ [size]) es
  | size, pending, CEvent.link cid pid :: es =>
      cid ∈ pending ∧ 1 ≤ pid ∧ pid < cid ∧ CWF size (pending.erase cid) es

/-- Number of allocations (= number of inserts) in a schedule. -/
def allocCount : List CEvent → Nat
  | [] => 0
  | CEvent.alloc :: es => allocCount es + 1
  | CEvent.link _ _ :: es => allocCount es

/-- The mid-run invariant of the concurrent store: allocated-but-unlinked
slots still hold their zero fill (`up = prev = 0`), and every node's
sibling list holds exactly its already-linked children, once each. -/
def CInv (t : Tree) (pending : List Nat) : Prop :=
  2 ≤ t.length ∧
  (∀ i, i < t.length → (hk t i).up < t.length) ∧
  (∀ i ∈ pending, 2 ≤ i ∧ i < t.length ∧ (hk t i).up = 0 ∧ (hk t i).prev = 0) ∧
  pending.Nodup ∧
  ∀ p, p < t.length →
    ∃ l, PrevChain t p ((hk t p).tail) l ∧ l.length = (hk t p).fan ∧ l.Nodup ∧
      ∀ i, i ∈ l ↔ (1 ≤ i ∧ i < t.length ∧ i ∉ pending ∧ (hk t i).up = p)

deriving instance DecidableEq for Except

theorem hk_of_length_le (t : Tree) (i : Nat) (hi : t.length ≤ i) :
    hk t i = Hook.dflt := by
  simp [hk, List.getD_eq_getElem?_getD, List.getElem?_eq_none hi]

theorem hk_set_self (t : Tree) (i : Nat) (h : Hook) (hi : i < t.length) :
    hk (setHk t i h) i = h := by
  simp [hk, setHk, List.getD_eq_getElem?_getD, List.getElem?_set_self, hi]

theorem hk_set_ne (t : Tree) (i j : Nat) (h : Hook) (hne : j ≠ i) :
    hk (setHk t i h) j = hk t j := by
  simp [hk, setHk, List.getD_eq_getElem?_getD, List.getElem?_set_ne (Ne.symm hne)]

theorem hk_append_lt (t : Tree) (x : Hook) (i : Nat) (hi : i < t.length) :
    hk (t ++ [x]) i = hk t i := by
  simp [hk, List.getD_eq_getElem?_getD, List.getElem?_append_left hi]

theorem hk_append_self (t : Tree) (x : Hook) : hk (t ++ [x]) t.length = x := by
  simp [hk, List.getD_eq_getElem?_getD]

theorem hk_append_of_eq (t : Tree) (x : Hook) (i : Nat) (hi : i = t.length) :
    hk (t ++ [x]) i = x := by
  subst hi; exact hk_append_self t x

theorem insert_fst (t : Tree) (pid : Nat) (node : Hook) :
    (insert t pid node).1 = t.length := rfl

/-- Normal form of one sequential insert: the parent slot gets the new
`tail`/`fan`, the new node is appended with `up`/`prev` overwritten and the
pushed hook's `tail`/`fan` kept. -/
theorem insert_eq (t : Tree) (pid : Nat) (node : Hook) (hpid : pid < t.length) :
    (insert t pid node).2 =
      (setHk t pid { hk t pid with tail := t.length, fan := (hk t pid).fan + 1 }) ++
        [{ up := pid, prev := (hk t pid).tail, tail := node.tail, fan := node.fan }] := by
  have hne : pid ≠ t.length := Nat.ne_of_lt hpid
  apply List.ext_getElem?
  intro i
  by_cases h1 : i = pid
  · subst h1
    simp [insert, setHk, hk, List.getD_eq_getElem?_getD, List.getElem?_set, List.getElem?_append,
      hpid, hne, List.getElem?_append_left]
  · by_cases h2 : i = t.length
    · subst h2
      simp [insert, setHk, hk, List.getD_eq_getElem?_getD, List.getElem?_set, List.getElem?_append,
        hpid, hne, Ne.symm h1, List.getElem?_append_left]
    · have h1' : pid ≠ i := Ne.symm h1
      have h2' : t.length ≠ i := Ne.symm h2
      by_cases h3 : i < t.length
      · simp [insert, setHk, hk, List.getD_eq_getElem?_getD, List.getElem?_set, h1, h2, h1', h2',
          List.getElem?_append_left, h3]
      · simp only [insert, setHk, hk]
        rw [List.getElem?_eq_none, List.getElem?_eq_none] <;> simp <;> omega

theorem insert_length (t : Tree) (pid : Nat) (node : Hook) :
    (insert t pid node).2.length = t.length + 1 := by
  simp [insert, setHk]

/-- The slot of the freshly inserted node. -/
theorem hk_insert_new (t : Tree) (pid : Nat) (node : Hook) (hpid : pid < t.length) :
    hk (insert t pid node).2 t.length =
      { up := pid, prev := (hk t pid).tail, tail := node.tail, fan := node.fan } := by
  rw [insert_eq t pid node hpid, hk_append_of_eq]
  simp [setHk]

/-- The parent's slot after an insert: new `tail`, incremented `fan`. -/
theorem hk_insert_parent (t : Tree) (pid : Nat) (node : Hook) (hpid : pid < t.length) :
    hk (insert t pid node).2 pid =
      { hk t pid with tail := t.length, fan := (hk t pid).fan + 1 } := by
  rw [insert_eq t pid node hpid, hk_append_lt, hk_set_self] <;> simp [setHk, hpid]

/-- All other slots are untouched by an insert. -/
theorem hk_insert_other (t : Tree) (pid : Nat) (node : Hook) (i : Nat)
    (hne1 : i ≠ pid) (hne2 : i ≠ t.length) (hpid : pid < t.length) :
    hk (insert t pid node).2 i = hk t i := by
  by_cases hi : i < t.length
  · rw [insert_eq t pid node hpid, hk_append_lt, hk_set_ne _ _ _ _ hne1]
    simp [setHk, hi]
  · have h4 : (insert t pid node).2.length ≤ i := by rw [insert_length]; omega
    rw [hk_of_length_le _ _ h4, hk_of_length_le _ _ (by omega : t.length ≤ i)]

theorem emplace_fst (t : Tree) (pid : Nat) : (emplace t pid).1 = t.length := rfl

theorem emplaceT_length (t : Tree) (pid : Nat) :
    (emplaceT t pid).length = t.length + 1 := insert_length t pid Hook.dflt

theorem hk_emplaceT_new (t : Tree) (pid : Nat) (hpid : pid < t.length) :
    hk (emplaceT t pid) t.length =
      { up := pid, prev := (hk t pid).tail, tail := 0, fan := 0 } :=
  hk_insert_new t pid Hook.dflt hpid

theorem hk_emplaceT_parent (t : Tree) (pid : Nat) (hpid : pid < t.length) :
    hk (emplaceT t pid) pid =
      { hk t pid with tail := t.length, fan := (hk t pid).fan + 1 } :=
  hk_insert_parent t pid Hook.dflt hpid

theorem hk_emplaceT_other (t : Tree) (pid i : Nat)
    (hne1 : i ≠ pid) (hne2 : i ≠ t.length) (hpid : pid < t.length) :
    hk (emplaceT t pid) i = hk t i :=
  hk_insert_other t pid Hook.dflt i hne1 hne2 hpid

/-- C2: a sequential `emplace(parent, args...)` or `insert(parent, node)`
with a parent already in the store returns the NodeID equal to the store's
size immediately before the call; afterwards the new slot's `up` equals the
parent, its `prev` equals the parent's old `tail`, the parent's `tail`
equals the returned id and the parent's `fan` grew by one. -/
theorem c2_insert_emplace_postcondition (t : Tree) (pid : Nat) (node : Hook)
    (hpid : pid < t.length) :
    (insert t pid node).1 = t.length ∧
    (hk (insert t pid node).2 t.length).up = pid ∧
    (hk (insert t pid node).2 t.length).prev = (hk t pid).tail ∧
    (hk (insert t pid node).2 pid).tail = t.length ∧
    (hk (insert t pid node).2 pid).fan = (hk t pid).fan + 1 ∧
    (emplace t pid).1 = t.length ∧
    (hk (emplace t pid).2 t.length).up = pid ∧
    (hk (emplace t pid).2 t.length).prev = (hk t pid).tail ∧
    (hk (emplace t pid).2 pid).tail = t.length ∧
    (hk (emplace t pid).2 pid).fan = (hk t pid).fan + 1 := by
  refine ⟨rfl, ?_, ?_, ?_, ?_, rfl, ?_, ?_, ?_, ?_⟩ <;>
    simp [emplace, hk_insert_new t pid _ hpid, hk_insert_parent t pid _ hpid]

/-- Witness for C2 at the freshly constructed tree: inserting the root
under the sentinel. -/
theorem c2_insert_emplace_postcondition_witness :
    (insert mkTree 0 Hook.dflt).1 = mkTree.length ∧
    (hk (insert mkTree 0 Hook.dflt).2 mkTree.length).up = 0 ∧
    (hk (insert mkTree 0 Hook.dflt).2 mkTree.length).prev = (hk mkTree 0).tail ∧
    (hk (insert mkTree 0 Hook.dflt).2 0).tail = mkTree.length ∧
    (hk (insert mkTree 0 Hook.dflt).2 0).fan = (hk mkTree 0).fan + 1 ∧
    (emplace mkTree 0).1 = mkTree.length ∧
    (hk (emplace mkTree 0).2 mkTree.length).up = 0 ∧
    (hk (emplace mkTree 0).2 mkTree.length).prev = (hk mkTree 0).tail ∧
    (hk (emplace mkTree 0).2 0).tail = mkTree.length ∧
    (hk (emplace mkTree 0).2 0).fan = (hk mkTree 0).fan + 1 :=
  c2_insert_emplace_postcondition mkTree 0 Hook.dflt (by decide)

theorem PrevChain.lift {t t' : Tree} {p s : Nat} {l : List Nat}
    (hc : PrevChain t p s l)
    (hagree : ∀ i ∈ l, (hk t' i).up = (hk t i).up ∧ (hk t' i).prev = (hk t i).prev) :
    PrevChain t' p s l := by
  induction hc with
  | nil => exact PrevChain.nil
  | cons i l hi hup htl ih =>
    have hag := hagree i (List.mem_cons_self i l)
    refine PrevChain.cons i l hi (by rw [hag.1]; exact hup) ?_
    rw [hag.2]
    exact ih fun j hj => hagree j (List.mem_cons_of_mem i hj)

theorem PrevChain.iterPrev_length {t : Tree} {p s : Nat} {l : List Nat}
    (hc : PrevChain t p s l) : iterPrev t l.length s = 0 := by
  induction hc with
  | nil => rfl
  | cons i l hi hup htl ih => simpa [iterPrev] using ih

theorem PrevChain.iterPrev_getElem {t : Tree} {p s : Nat} {l : List Nat}
    (hc : PrevChain t p s l) : ∀ k (hklt : k < l.length), iterPrev t k s = l[k] := by
  induction hc with
  | nil => intro k hklt; simp at hklt
  | cons i l hi hup htl ih =>
    intro k hklt
    cases k with
    | zero => simp [iterPrev]
    | succ k => simpa [iterPrev] using ih k (by simpa using hklt)

theorem PrevChain.start_mem {t : Tree} {p s : Nat} {l : List Nat}
    (hc : PrevChain t p s l) (hs : s ≠ 0) : s ∈ l := by
  cases hc with
  | nil => exact absurd rfl hs
  | cons i l hi hup htl => exact List.mem_cons_self _ _

theorem inv_mkTree : Inv mkTree := by
  constructor
  · refine ⟨by decide, by decide, by decide, ?_⟩
    intro i h1 h2
    simp [mkTree] at h2
    omega
  · intro p hp
    have hp0 : p = 0 := Nat.lt_one_iff.mp (by simpa [mkTree] using hp)
    subst hp0
    refine ⟨[], ?_, by decide, List.Pairwise.nil, ?_⟩
    · have h0 : (hk mkTree 0).tail = 0 := by decide
      rw [h0]; exact PrevChain.nil
    · intro i
      constructor
      · intro h; simp at h
      · rintro ⟨h1, h2, h3⟩
        simp [mkTree] at h2
        omega

/-- `up` and `prev` of pre-existing slots are untouched by an emplace. -/
theorem up_prev_agree_emplaceT (t : Tree) (pid : Nat) (hpid : pid < t.length) (i : Nat)
    (hi : i < t.length) :
    (hk (emplaceT t pid) i).up = (hk t i).up ∧
      (hk (emplaceT t pid) i).prev = (hk t i).prev := by
  by_cases h : i = pid
  · subst h; rw [hk_emplaceT_parent t i hpid]; exact ⟨rfl, rfl⟩
  · rw [hk_emplaceT_other t pid i h (Nat.ne_of_lt hi) hpid]; exact ⟨rfl, rfl⟩

theorem inv_emplaceT (t : Tree) (pid : Nat) (hinv : Inv t) (hpid : pid < t.length) :
    Inv (emplaceT t pid) := by
  obtain ⟨⟨hpos, hup0, hprev0, hbnd⟩, hsib⟩ := hinv
  have hlen' : (emplaceT t pid).length = t.length + 1 := emplaceT_length t pid
  -- the parent's tail is a valid id (or 0)
  have htailp : (hk t pid).tail < t.length := by
    by_cases h0 : (hk t pid).tail = 0
    · rw [h0]; exact hpos
    · obtain ⟨l, hc, hflen, hpair, hmem⟩ := hsib pid hpid
      exact ((hmem _).1 (hc.start_mem h0)).2.1
  -- `up pid = pid` is impossible
  have huppid : (hk t pid).up ≠ pid ∨ pid = 0 := by
    by_cases h0 : pid = 0
    · exact Or.inr h0
    · exact Or.inl (Nat.ne_of_lt (hbnd pid (Nat.one_le_iff_ne_zero.mpr h0) hpid).1)
  constructor
  · -- BaseInv
    refine ⟨by omega, ?_, ?_, ?_⟩
    · by_cases h : pid = 0
      · subst h; rw [hk_emplaceT_parent t 0 hpid]; exact hup0
      · rw [hk_emplaceT_other t pid 0 (Ne.symm h) (by omega) hpid]; exact hup0
    · by_cases h : pid = 0
      · subst h; rw [hk_emplaceT_parent t 0 hpid]; exact hprev0
      · rw [hk_emplaceT_other t pid 0 (Ne.symm h) (by omega) hpid]; exact hprev0
    · intro i h1 h2
      rw [hlen'] at h2
      by_cases hn : i = t.length
      · subst hn
        rw [hk_emplaceT_new t pid hpid]
        exact ⟨hpid, htailp⟩
      · have hi : i < t.length := by omega
        have := up_prev_agree_emplaceT t pid hpid i hi
        rw [this.1, this.2]
        exact hbnd i h1 hi
  · -- SibInv
    intro p hp
    rw [hlen'] at hp
    by_cases hppid : p = pid
    · -- the parent gains the new node at the head of its sibling list
      subst hppid
      obtain ⟨l, hc, hflen, hpair, hmem⟩ := hsib p hpid
      have hlsmall : ∀ i ∈ l, i < t.length := fun i hi => ((hmem i).1 hi).2.1
      have hlift : PrevChain (emplaceT t p) p ((hk t p).tail) l :=
        hc.lift fun i hi => up_prev_agree_emplaceT t p hpid i (hlsmall i hi)
      refine ⟨t.length :: l, ?_, ?_, ?_, ?_⟩
      · rw [hk_emplaceT_parent t p hpid]
        refine PrevChain.cons t.length l (by omega) ?_ ?_
        · rw [hk_emplaceT_new t p hpid]
        · rw [hk_emplaceT_new t p hpid]
          exact hlift
      · rw [hk_emplaceT_parent t p hpid]
        simp [hflen]
      · exact List.Pairwise.cons (fun i hi => hlsmall i hi) hpair
      · intro i
        constructor
        · intro hi
          rcases List.mem_cons.1 hi with h | h
          · subst h
            refine ⟨by omega, by omega, ?_⟩
            rw [hk_emplaceT_new t p hpid]
          · obtain ⟨ha, hb, hcc⟩ := (hmem i).1 h
            refine ⟨ha, by omega, ?_⟩
            rw [(up_prev_agree_emplaceT t p hpid i hb).1]
            exact hcc
        · rintro ⟨ha, hb, hcc⟩
          by_cases hn : i = t.length
          · subst hn; exact List.mem_cons_self _ _
          · have hi : i < t.length := by omega
            rw [(up_prev_agree_emplaceT t p hpid i hi).1] at hcc
            exact List.mem_cons_of_mem _ ((hmem i).2 ⟨ha, hi, hcc⟩)
    · by_cases hpn : p = t.length
      · -- the new node: a fresh leaf with no children
        subst hpn
        refine ⟨[], ?_, ?_, List.Pairwise.nil, ?_⟩
        · rw [hk_emplaceT_new t pid hpid]
          exact PrevChain.nil
        · rw [hk_emplaceT_new t pid hpid]
          rfl
        · intro i
          simp only [List.not_mem_nil, false_iff]
          rintro ⟨ha, hb, hcc⟩
          by_cases hn : i = t.length
          · subst hn
            rw [hk_emplaceT_new t pid hpid] at hcc
            simp at hcc
            omega
          · have hi : i < t.length := by omega
            rw [(up_prev_agree_emplaceT t pid hpid i hi).1] at hcc
            have := (hbnd i ha hi).1
            omega
      · -- any other node: list unchanged
        have hplt : p < t.length := by omega
        obtain ⟨l, hc, hflen, hpair, hmem⟩ := hsib p hplt
        have hlsmall : ∀ i ∈ l, i < t.length := fun i hi => ((hmem i).1 hi).2.1
        have hlift : PrevChain (emplaceT t pid) p ((hk t p).tail) l :=
          hc.lift fun i hi => up_prev_agree_emplaceT t pid hpid i (hlsmall i hi)
        have hfix : hk (emplaceT t pid) p = hk t p :=
          hk_emplaceT_other t pid p hppid hpn hpid
        refine ⟨l, by rw [hfix]; exact hlift, by rw [hfix]; exact hflen, hpair, ?_⟩
        intro i
        constructor
        · intro hi
          obtain ⟨ha, hb, hcc⟩ := (hmem i).1 hi
          refine ⟨ha, by omega, ?_⟩
          rw [(up_prev_agree_emplaceT t pid hpid i hb).1]
          exact hcc
        · rintro ⟨ha, hb, hcc⟩
          by_cases hn : i = t.length
          · subst hn
            rw [hk_emplaceT_new t pid hpid] at hcc
            simp at hcc
            omega
          · have hi2 : i < t.length := by omega
            rw [(up_prev_agree_emplaceT t pid hpid i hi2).1] at hcc
            exact (hmem i).2 ⟨ha, hi2, hcc⟩

theorem reachable_inv {t : Tree} (ht : Reachable t) : Inv t := by
  induction ht with
  | mk => exact inv_mkTree
  | step t pid ht hpid ih => exact inv_emplaceT t pid ih hpid

/-- C1: sibling-list consistency is an invariant of the sequential rooted
tree.  For every tree reachable from the freshly constructed tree by
inserts/emplaces with valid parents: for every non-sentinel node `p`, the
walk that starts at `p.tail` and repeatedly follows `prev` terminates at
the invalid id after exactly `p.fan` steps and every node visited on the
walk has `up = p`; moreover every non-sentinel node `n` is reached exactly
once by the walk starting at `T[n.up].tail`. -/
theorem c1_sibling_list_invariant (t : Tree) (ht : Reachable t) :
    (∀ p, 1 ≤ p → p < t.length →
      iterPrev t ((hk t p).fan) ((hk t p).tail) = 0 ∧
      ∀ k, k < (hk t p).fan →
        iterPrev t k ((hk t p).tail) ≠ 0 ∧
        (hk t (iterPrev t k ((hk t p).tail))).up = p) ∧
    (∀ n, 1 ≤ n → n < t.length →
      ∃! k, k < (hk t ((hk t n).up)).fan ∧
        iterPrev t k ((hk t ((hk t n).up)).tail) = n) := by
  obtain ⟨⟨hpos, hup0, hprev0, hbnd⟩, hsib⟩ := reachable_inv ht
  constructor
  · intro p hp1 hp2
    obtain ⟨l, hc, hflen, hpair, hmem⟩ := hsib p hp2
    constructor
    · rw [← hflen]
      exact hc.iterPrev_length
    · intro k hk2
      rw [← hflen] at hk2
      rw [hc.iterPrev_getElem k hk2]
      have hmem2 : l[k] ∈ l := List.getElem_mem hk2
      obtain ⟨ha, hb, hcc⟩ := (hmem _).1 hmem2
      exact ⟨by omega, hcc⟩
  · intro n hn1 hn2
    have hupn : (hk t n).up < t.length := by
      have := (hbnd n hn1 hn2).1
      omega
    obtain ⟨l, hc, hflen, hpair, hmem⟩ := hsib ((hk t n).up) hupn
    have hnl : n ∈ l := (hmem n).2 ⟨hn1, hn2, rfl⟩
    obtain ⟨k, hklt, hkeq⟩ := List.getElem_of_mem hnl
    have hnd : l.Nodup := hpair.imp fun h => Nat.ne_of_gt h
    refine ⟨k, ⟨by omega, by rw [hc.iterPrev_getElem k hklt]; exact hkeq⟩, ?_⟩
    rintro k2 ⟨hk2lt, hk2eq⟩
    rw [← hflen] at hk2lt
    rw [hc.iterPrev_getElem k2 hk2lt] at hk2eq
    have : l[k2] = l[k] := by rw [hk2eq, hkeq]
    exact (List.Nodup.getElem_inj_iff hnd).mp this

/-- Witness for C1 at a concrete reachable tree: the root with two
children. -/
theorem c1_sibling_list_invariant_witness :
    (∀ p, 1 ≤ p → p < (emplaceT (emplaceT (emplaceT mkTree 0) 1) 1).length →
      iterPrev (emplaceT (emplaceT (emplaceT mkTree 0) 1) 1)
          ((hk (emplaceT (emplaceT (emplaceT mkTree 0) 1) 1) p).fan)
          ((hk (emplaceT (emplaceT (emplaceT mkTree 0) 1) 1) p).tail) = 0 ∧
      ∀ k, k < (hk (emplaceT (emplaceT (emplaceT mkTree 0) 1) 1) p).fan →
        iterPrev (emplaceT (emplaceT (emplaceT mkTree 0) 1) 1) k
            ((hk (emplaceT (emplaceT (emplaceT mkTree 0) 1) 1) p).tail) ≠ 0 ∧
        (hk (emplaceT (emplaceT (emplaceT mkTree 0) 1) 1)
            (iterPrev (emplaceT (emplaceT (emplaceT mkTree 0) 1) 1) k
              ((hk (emplaceT (emplaceT (emplaceT mkTree 0) 1) 1) p).tail))).up = p) ∧
    (∀ n, 1 ≤ n → n < (emplaceT (emplaceT (emplaceT mkTree 0) 1) 1).length →
      ∃! k, k < (hk (emplaceT (emplaceT (emplaceT mkTree 0) 1) 1)
          ((hk (emplaceT (emplaceT (emplaceT mkTree 0) 1) 1) n).up)).fan ∧
        iterPrev (emplaceT (emplaceT (emplaceT mkTree 0) 1) 1) k
          ((hk (emplaceT (emplaceT (emplaceT mkTree 0) 1) 1)
            ((hk (emplaceT (emplaceT (emplaceT mkTree 0) 1) 1) n).up)).tail) = n) :=
  c1_sibling_list_invariant _
    (Reachable.step _ 1
      (Reachable.step _ 1 (Reachable.step _ 0 Reachable.mk (by decide)) (by decide))
      (by decide))

/-- C10: the sequential `emplace`/`insert` path performs no validity check
on the parent id.  Under the precondition `0 ≤ pid < size` every store
access is in bounds (the checked run succeeds and agrees with the
unchecked embedding, so the out-of-bounds branch is unreachable); a parent
id outside `[0, size)` is not rejected by any check — the embedded run
reaches the unchecked `nodes[pid_.id]` access and faults there; the only
guard on the path is the second-root assert. -/
theorem c10_no_parent_validity_check (t : Tree) (pid : Int) :
    (0 ≤ pid → pid < (t.length : Int) → (pid = 0 → (hk t 0).tail = 0) →
      emplaceChecked t pid = .ok (emplace t pid.toNat)) ∧
    (pid < 0 ∨ (t.length : Int) < pid → emplaceChecked t pid = .error .outOfBounds) ∧
    (pid = 0 → 1 ≤ t.length → (hk t 0).tail ≠ 0 →
      emplaceChecked t pid = .error .assertSecondRoot) := by
  refine ⟨?_, ?_, ?_⟩
  · intro h0 hlt hroot
    have hna : ¬ (pid = 0 ∧ (hk (t ++ [Hook.dflt]) 0).tail ≠ 0) := by
      rintro ⟨rfl, hne⟩
      have hlen : 0 < t.length := by omega
      rw [hk_append_lt t _ 0 hlen] at hne
      exact hne (hroot rfl)
    have hb : 0 ≤ pid ∧ pid.toNat < (t ++ [Hook.dflt]).length := by
      refine ⟨h0, ?_⟩
      simp only [List.length_append, List.length_cons, List.length_nil]
      omega
    simp only [emplaceChecked, hna, if_false, hb, if_true]
    rfl
  · intro hout
    have hna : ¬ (pid = 0 ∧ (hk (t ++ [Hook.dflt]) 0).tail ≠ 0) := by
      rintro ⟨rfl, hne⟩
      omega
    have hb : ¬ (0 ≤ pid ∧ pid.toNat < (t ++ [Hook.dflt]).length) := by
      rintro ⟨h0, hlt⟩
      simp only [List.length_append, List.length_cons, List.length_nil] at hlt
      omega
    simp only [emplaceChecked, hna, if_false, hb]
  · rintro rfl hlen hne
    have hna : (0 : Int) = 0 ∧ (hk (t ++ [Hook.dflt]) 0).tail ≠ 0 := by
      refine ⟨rfl, ?_⟩
      rw [hk_append_lt t _ 0 (by omega)]
      exact hne
    unfold emplaceChecked
    rw [if_pos hna]

/-- Witness for C10 on the one-root tree: a valid parent succeeds, a
negative parent id reaches the out-of-bounds access, the second root is
caught only by the assert. -/
theorem c10_no_parent_validity_check_witness :
    emplaceChecked (emplaceT mkTree 0) 1 =
      .ok (emplace (emplaceT mkTree 0) ((1 : Int)).toNat) ∧
    emplaceChecked (emplaceT mkTree 0) (-1) = .error .outOfBounds ∧
    emplaceChecked (emplaceT mkTree 0) 0 = .error .assertSecondRoot :=
  ⟨(c10_no_parent_validity_check (emplaceT mkTree 0) 1).1 (by decide) (by decide) (by decide),
   (c10_no_parent_validity_check (emplaceT mkTree 0) (-1)).2.1 (by decide),
   (c10_no_parent_validity_check (emplaceT mkTree 0) 0).2.2 rfl (by decide) (by decide)⟩

/-- C5 counterexample: on the tree holding exactly the sentinel and the
root, `height(root)` reports height 1 but width 0, not 1: the width
accumulator only records queue sizes measured after expanding a level, so
the starting level is never counted. -/
theorem c5_counterexample_single_node_width :
    ¬ ((heightWidth (emplaceT mkTree 0) 1).1 = 1 ∧
       (heightWidth (emplaceT mkTree 0) 1).2 = 1) := by decide

/-- C5 (amended): on the single-node tree, `height(root)` returns 1 and
the width reported through the out-pointer is 0. -/
theorem c5_single_node_height_one_width_zero :
    heightWidth (emplaceT mkTree 0) 1 = (1, 0) := by decide

/-- C3 (code bug): `make_sub` ignores its `root_` argument — it passes the
constant `root` to `make_sub_impl` (and its other branch is a bare
`return;` in a value-returning function).  On the chain 1 → 2, asking for
the depth-1 sub-tree of node 2 must, per the claim, yield a fresh tree
whose only non-sentinel node is node 2 (a leaf at slot 1); the code
instead extracts from node 1: the produced root slot is the moved old root
with `fan = 1` and a `tail` pointing outside the produced store. -/
theorem c3_make_sub_extracts_wrong_subtree :
    make_sub chainTree2 1 2 =
      some [{ up := 0, prev := 0, tail := 1, fan := 1 },
            { up := 0, prev := 0, tail := 2, fan := 1 }] ∧
    (hk [{ up := 0, prev := 0, tail := 1, fan := 1 },
         { up := 0, prev := 0, tail := 2, fan := 1 }] 1).fan ≠ 0 ∧
    ([{ up := (0 : Nat), prev := (0 : Nat), tail := (1 : Nat), fan := (1 : Nat) },
      { up := 0, prev := 0, tail := 2, fan := 1 }] : Tree).length ≤
      (hk [{ up := 0, prev := 0, tail := 1, fan := 1 },
           { up := 0, prev := 0, tail := 2, fan := 1 }] 1).tail := by decide

theorem flattenLoop_flatBroken_stuck :
    ∀ (sub u : Tree) (c : Nat), FlattenLoop flatBroken sub c u → c = 2 → False := by
  intro sub u c h
  induction h with
  | done s => intro h2; exact absurd h2 (by decide)
  | step s child u hc hrec ih =>
    rintro rfl
    apply ih
    decide

/-- C6 (code bug): `flatten` is not idempotent.  On a root with a single
child, one `flatten` move-inserts the child while the new root still holds
the stale old `tail`, so the child's `prev` becomes its own id (slot 2,
`prev = 2`).  The second `flatten`'s child loop then follows
`tail = 2, prev = 2, …` and never reaches the invalid id: no terminating
run exists, in particular none returning the same tree. -/
theorem c6_flatten_not_idempotent :
    FlattenRel chainTree2 flatBroken ∧
    (hk flatBroken 2).prev = 2 ∧
    ¬ FlattenRel flatBroken flatBroken := by
  refine ⟨?_, by decide, ?_⟩
  · show FlattenLoop chainTree2 (flattenInit chainTree2) ((hk chainTree2 1).tail) flatBroken
    have h1 : (hk chainTree2 1).tail = 2 := by decide
    rw [h1]
    refine FlattenLoop.step _ 2 _ (by decide) ?_
    have h2 : (hk chainTree2 2).prev = 0 := by decide
    have h3 : (insert (flattenInit chainTree2) 1 (hk chainTree2 2)).2 = flatBroken := by decide
    rw [h2, h3]
    exact FlattenLoop.done _
  · intro hcon
    have h1 : (hk flatBroken 1).tail = 2 := by decide
    rw [FlattenRel, h1] at hcon
    exact flattenLoop_flatBroken_stuck _ _ _ hcon rfl

theorem roundPageB_ge (n : Nat) : n ≤ roundPageB n := by
  unfold roundPageB os_vm_page_size_b
  split <;> omega

theorem dvd_roundPageB (es n : Nat) (hdvd : es ∣ os_vm_page_size_b) (hn : es ∣ n) :
    es ∣ roundPageB n := by
  unfold roundPageB
  split
  · exact hn
  · exact Dvd.dvd.mul_left hdvd _

/-- A successful append: with a reachable state (`VmInv`) and room below
the logical capacity, `emplace_back` commits what it needs and extends the
contents in place. -/
theorem emplace_back_ok (cap es : Nat) (v : VmVec) (x : Nat)
    (hes : 0 < es) (hdvd : es ∣ os_vm_page_size_b)
    (hinv : VmInv cap es v) (hlt : v.len < cap) :
    ∃ cb, emplace_back cap es v x =
        .ok { len := v.len + 1, committedB := cb, content := v.content ++ [x],
              base := v.base } ∧
      v.committedB ≤ cb ∧ cb ≤ capacity_b cap es ∧ es ∣ cb ∧ (v.len + 1) * es ≤ cb := by
  obtain ⟨h1, h2, h3, h4⟩ := hinv
  have hcapB : cap * es ≤ capacity_b cap es := roundPageB_ge (cap * es)
  have hpage : es ≤ os_vm_page_size_b := Nat.le_of_dvd (by decide) hdvd
  have hchunk : es ≤ alloc_page_size_b := le_trans hpage (by decide)
  have hlts : (v.len + 1) * es ≤ cap * es := Nat.mul_le_mul_right es hlt
  have h5 : (v.len + 1) * es = v.len * es + es := by ring
  have hdchunk : es ∣ alloc_page_size_b := by
    have h6 : alloc_page_size_b = 1600 * os_vm_page_size_b := by
      unfold alloc_page_size_b os_vm_page_size_b
      omega
    rw [h6]
    exact Dvd.dvd.mul_left hdvd _
  have hdcap : es ∣ capacity_b cap es :=
    dvd_roundPageB es (cap * es) hdvd (Dvd.intro_left cap rfl)
  by_cases hb : v.len * es = v.committedB
  · -- size_b == m_committed_b: commit one more chunk (or cap at the reservation)
    have hltcap : v.committedB < capacity_b cap es := by omega
    have harm : v.committedB <
        (if v.committedB = 0 then alloc_page_size_b
         else v.committedB + alloc_page_size_b) := by
      rcases Nat.eq_zero_or_pos v.committedB with h0 | h0
      · rw [if_pos h0, h0]
        unfold alloc_page_size_b
        omega
      · rw [if_neg (by omega : v.committedB ≠ 0)]
        unfold alloc_page_size_b
        omega
    have hgt : v.committedB <
        min (if v.committedB = 0 then alloc_page_size_b
             else v.committedB + alloc_page_size_b) (capacity_b cap es) :=
      lt_min harm hltcap
    have hwrite : (v.len + 1) * es ≤
        min (if v.committedB = 0 then alloc_page_size_b
             else v.committedB + alloc_page_size_b) (capacity_b cap es) := by
      refine le_min ?_ (le_trans hlts hcapB)
      rcases Nat.eq_zero_or_pos v.committedB with h0 | h0
      · rw [if_pos h0]
        have hlen0 : v.len * es = 0 := by omega
        omega
      · rw [if_neg (by omega : v.committedB ≠ 0)]
        omega
    have hdmin : es ∣ min (if v.committedB = 0 then alloc_page_size_b
        else v.committedB + alloc_page_size_b) (capacity_b cap es) := by
      rcases Nat.eq_zero_or_pos v.committedB with h0 | h0
      · rw [if_pos h0, Nat.min_def]
        split
        · exact hdchunk
        · exact hdcap
      · rw [if_neg (by omega : v.committedB ≠ 0), Nat.min_def]
        split
        · exact Dvd.dvd.add h3 hdchunk
        · exact hdcap
    refine ⟨_, ?_, le_of_lt hgt, min_le_right _ _, hdmin, hwrite⟩
    unfold emplace_back
    rw [if_pos hb, if_neg (by omega : ¬ (min (if v.committedB = 0 then alloc_page_size_b
      else v.committedB + alloc_page_size_b) (capacity_b cap es) - v.committedB = 0)),
      if_pos hwrite]
  · -- room inside the already committed range
    have hstrict : v.len * es < v.committedB := by omega
    have hwrite : (v.len + 1) * es ≤ v.committedB := by
      obtain ⟨k, hk⟩ := h3
      have hlen : v.len < k := by
        have h7 : v.len * es < k * es := by
          calc v.len * es < v.committedB := hstrict
          _ = es * k := hk
          _ = k * es := by ring
        exact Nat.lt_of_mul_lt_mul_right h7
      calc (v.len + 1) * es ≤ k * es := Nat.mul_le_mul_right es hlen
      _ = es * k := by ring
      _ = v.committedB := hk.symm
    refine ⟨v.committedB, ?_, le_refl _, h2, h3, hwrite⟩
    unfold emplace_back
    rw [if_neg hb, if_pos hwrite]

/-- C9: appends never disturb existing elements.  From any reachable state
with `size < capacity`, `emplace_back` succeeds, constructs the new
element at index `size`, increments the size, leaves every element below
`size` (and the base address) unchanged, `push_back` is `emplace_back`,
and `pop_back` leaves the base address unchanged; the invariant is
preserved, so this holds along any sequence of appends. -/
theorem c9_append_stability (cap es : Nat) (v : VmVec) (x : Nat)
    (hes : 0 < es) (hdvd : es ∣ os_vm_page_size_b)
    (hinv : VmInv cap es v) (hlt : v.len < cap) :
    (emplace_back cap es v x).isOk = true ∧
    (getOk (emplace_back cap es v x) v).len = v.len + 1 ∧
    (getOk (emplace_back cap es v x) v).content = v.content ++ [x] ∧
    (getOk (emplace_back cap es v x) v).content[v.len]? = some x ∧
    (∀ i, i < v.len → (getOk (emplace_back cap es v x) v).content[i]?
        = v.content[i]?) ∧
    (getOk (emplace_back cap es v x) v).base = v.base ∧
    push_back cap es v x = emplace_back cap es v x ∧
    (pop_back v).base = v.base ∧
    VmInv cap es (getOk (emplace_back cap es v x) v) := by
  obtain ⟨cb, heq, hge, hle, hdvd2, hwb⟩ := emplace_back_ok cap es v x hes hdvd hinv hlt
  obtain ⟨h1, h2, h3, h4⟩ := hinv
  have hgo : getOk (emplace_back cap es v x) v =
      { len := v.len + 1, committedB := cb, content := v.content ++ [x],
        base := v.base } := by
    rw [heq]
    rfl
  refine ⟨by rw [heq]; rfl, by rw [hgo], by rw [hgo], ?_, ?_, by rw [hgo], rfl, rfl, ?_⟩
  · rw [hgo]
    show (v.content ++ [x])[v.len]? = some x
    rw [List.getElem?_append_right (by omega)]
    simp [h4]
  · intro i hi
    rw [hgo]
    show (v.content ++ [x])[i]? = v.content[i]?
    exact List.getElem?_append_left (by omega)
  · rw [hgo]
    exact ⟨hwb, hle, hdvd2, by simp [h4]⟩

/-- Witness for C9 at the freshly constructed vector with capacity 1024
and element size 4. -/
theorem c9_append_stability_witness :
    (emplace_back 1024 4 (vmInit 0) 7).isOk = true ∧
    (getOk (emplace_back 1024 4 (vmInit 0) 7) (vmInit 0)).len = (vmInit 0).len + 1 ∧
    (getOk (emplace_back 1024 4 (vmInit 0) 7) (vmInit 0)).content =
      (vmInit 0).content ++ [7] ∧
    (getOk (emplace_back 1024 4 (vmInit 0) 7) (vmInit 0)).content[(vmInit 0).len]?
      = some 7 ∧
    (∀ i, i < (vmInit 0).len →
      (getOk (emplace_back 1024 4 (vmInit 0) 7) (vmInit 0)).content[i]?
        = (vmInit 0).content[i]?) ∧
    (getOk (emplace_back 1024 4 (vmInit 0) 7) (vmInit 0)).base = (vmInit 0).base ∧
    push_back 1024 4 (vmInit 0) 7 = emplace_back 1024 4 (vmInit 0) 7 ∧
    (pop_back (vmInit 0)).base = (vmInit 0).base ∧
    VmInv 1024 4 (getOk (emplace_back 1024 4 (vmInit 0) 7) (vmInit 0)) :=
  c9_append_stability 1024 4 (vmInit 0) 7 (by decide) (by decide)
    ⟨by decide, by decide, by decide, by decide⟩ (by decide)

set_option maxRecDepth 10000

/-- C4 counterexample: with capacity 1024 and element size 4 bytes, the
1025th append does not fail at all — `emplace_back` has no check against
the logical capacity, and the page-rounded committed range still has room
— so the append past capacity succeeds with size 1025, contradicting the
claimed `CapacityExhausted` failure with size left at 1024. -/
theorem c4_counterexample_append_past_capacity :
    (appendN 1024 4 1025 (vmInit 0)).isOk = true ∧
    lenOfResult (appendN 1024 4 1025 (vmInit 0)) = 1025 := by decide

/-- C4 (amended): the first 1024 appends succeed; no append ever fails
with a capacity error (no such check exists).  With element size 4 the
1025th append also succeeds (size becomes 1025, inside the page-rounded
committed range); with element size 64 — where `C * sizeof(T)` is exactly
page-aligned — the 1025th append requests a zero-byte commit, which the
host refuses, so it throws `bad_alloc` (`AllocationFailure`, not
`CapacityExhausted`), leaving the size at 1024. -/
theorem c4_append_past_capacity_behavior :
    lenOfResult (appendN 1024 4 1024 (vmInit 0)) = 1024 ∧
    (appendN 1024 4 1025 (vmInit 0)).isOk = true ∧
    lenOfResult (appendN 1024 4 1025 (vmInit 0)) = 1025 ∧
    (appendN 1024 64 1024 (vmInit 0)).isOk = true ∧
    lenOfResult (appendN 1024 64 1024 (vmInit 0)) = 1024 ∧
    emplace_back 1024 64 (getOk (appendN 1024 64 1024 (vmInit 0)) (vmInit 0)) 0 =
      Except.error VmError.allocationFailure := by decide

theorem chainAux_of_prevChain {t : Tree} {p s : Nat} {l : List Nat} {fuel : Nat}
    (hc : PrevChain t p s l) (hf : l.length ≤ fuel) : chainAux t fuel s = l := by
  induction hc generalizing fuel with
  | nil => cases fuel <;> rfl
  | cons i l hi hup htl ih =>
    simp only [List.length_cons] at hf
    cases fuel with
    | zero => omega
    | succ fuel =>
      cases i with
      | zero => exact absurd rfl hi
      | succ j =>
        show Nat.succ j :: chainAux t fuel ((hk t (Nat.succ j)).prev) = _
        rw [ih (by omega)]

theorem nodup_length_le {l : List Nat} {n : Nat} (hnd : l.Nodup)
    (hlt : ∀ a ∈ l, a < n) : l.length ≤ n := by
  have h1 : l.toFinset.card = l.length := List.toFinset_card_of_nodup hnd
  have h2 : l.toFinset ⊆ Finset.range n := by
    intro a ha
    rw [List.mem_toFinset] at ha
    exact Finset.mem_range.mpr (hlt a ha)
  have h3 := Finset.card_le_card h2
  rw [h1, Finset.card_range] at h3
  exact h3

/-- On an invariant-satisfying tree, the computed sibling walk of any node
is exactly its child list. -/
theorem siblings_eq (t : Tree) (hinv : Inv t) (p : Nat) (hp : p < t.length) :
    (siblings t ((hk t p).tail)).length = (hk t p).fan ∧
    (siblings t ((hk t p).tail)).Pairwise (fun a b => b < a) ∧
    ∀ i, i ∈ siblings t ((hk t p).tail) ↔
      (1 ≤ i ∧ i < t.length ∧ (hk t i).up = p) := by
  obtain ⟨l, hc, hlen, hpair, hmem⟩ := hinv.2 p hp
  have hnd : l.Nodup := hpair.imp fun h => Nat.ne_of_gt h
  have hbound : l.length ≤ t.length :=
    nodup_length_le hnd fun a ha => ((hmem a).1 ha).2.1
  have heq : siblings t ((hk t p).tail) = l := chainAux_of_prevChain hc hbound
  rw [heq]
  exact ⟨hlen, hpair, hmem⟩

theorem upPath_exists (t : Tree) (hinv : Inv t) :
    ∀ n, n < t.length → ∃ l, UpPath t n l := by
  intro n
  induction n using Nat.strong_induction_on with
  | _ n ih =>
    intro hn
    cases Nat.eq_zero_or_pos n with
    | inl h0 => exact ⟨[], h0 ▸ UpPath.nil⟩
    | inr h1 =>
      have hup : (hk t n).up < n := (hinv.1.2.2.2 n h1 hn).1
      obtain ⟨l, hl⟩ := ih ((hk t n).up) hup (by omega)
      exact ⟨n :: l, UpPath.cons n l (by omega) hl⟩

theorem UpPath.unique {t : Tree} {n : Nat} {l l' : List Nat}
    (h : UpPath t n l) (h' : UpPath t n l') : l = l' := by
  induction h generalizing l' with
  | nil =>
    cases h' with
    | nil => rfl
    | cons i l hi htl => exact absurd rfl hi
  | cons i l hi htl ih =>
    cases h' with
    | nil => exact absurd rfl hi
    | cons j l2 hj htl2 => rw [ih htl2]

theorem UpPath.mem_self {t : Tree} {n : Nat} {l : List Nat}
    (h : UpPath t n l) (hn : n ≠ 0) : n ∈ l := by
  cases h with
  | nil => exact absurd rfl hn
  | cons i l hi htl => exact List.mem_cons_self _ _

theorem UpPath.le_of_mem {t : Tree} (hinv : Inv t) {n : Nat} {l : List Nat}
    (h : UpPath t n l) (hn : n < t.length) : ∀ a ∈ l, 1 ≤ a ∧ a ≤ n := by
  induction h with
  | nil => intro a ha; simp at ha
  | cons i l hi htl ih =>
    intro a ha
    rcases List.mem_cons.1 ha with h0 | h0
    · omega
    · have hup : (hk t i).up < i := (hinv.1.2.2.2 i (by omega) (by omega)).1
      have := ih (by omega) a h0
      omega

theorem UpPath.up_mem {t : Tree} {n : Nat} {l : List Nat}
    (h : UpPath t n l) {c : Nat} (hc : c ∈ l) (hup : (hk t c).up ≠ 0) :
    (hk t c).up ∈ l := by
  induction h with
  | nil => simp at hc
  | cons i l hi htl ih =>
    rcases List.mem_cons.1 hc with h0 | h0
    · subst h0
      exact List.mem_cons_of_mem _ (htl.mem_self hup)
    · exact List.mem_cons_of_mem _ (ih h0)

/-- Linearity of up-paths: if both `a` and `b` lie on the up-path of `n`
with `b < a`, then `b` lies on the up-path of `a`'s parent. -/
theorem UpPath.step_down {t : Tree} (hinv : Inv t) {n : Nat} {l : List Nat}
    (h : UpPath t n l) (hn : n < t.length) {a b : Nat}
    (ha : a ∈ l) (hb : b ∈ l) (hlt : b < a) :
    ∃ la, UpPath t ((hk t a).up) la ∧ b ∈ la := by
  induction h with
  | nil => simp at ha
  | cons i l hi htl ih =>
    rcases List.mem_cons.1 ha with h0 | h0
    · subst h0
      have hb2 : b ∈ l := by
        rcases List.mem_cons.1 hb with h1 | h1
        · omega
        · exact h1
      exact ⟨l, htl, hb2⟩
    · have hup : (hk t i).up < i := (hinv.1.2.2.2 i (by omega) (by omega)).1
      have hale : 1 ≤ a ∧ a ≤ (hk t i).up :=
        htl.le_of_mem hinv (by omega) a h0
      have hb2 : b ∈ l := by
        rcases List.mem_cons.1 hb with h1 | h1
        · omega
        · exact h1
      exact ih (by omega) h0 hb2

theorem flatMap_congr_mem {l : List Nat} {f g : Nat → List Nat}
    (h : ∀ a ∈ l, f a = g a) : l.flatMap f = l.flatMap g := by
  induction l with
  | nil => rfl
  | cons a l ih =>
    rw [List.flatMap_cons, List.flatMap_cons, h a (List.mem_cons_self _ _),
      ih fun b hb => h b (List.mem_cons_of_mem _ hb)]

theorem child_mem_facts (t : Tree) (hinv : Inv t) {x c : Nat} (hx2 : x < t.length)
    (hc : c ∈ (siblings t ((hk t x).tail)).reverse) :
    1 ≤ c ∧ c < t.length ∧ (hk t c).up = x ∧ x < c := by
  rw [List.mem_reverse] at hc
  obtain ⟨h1, h2, h3⟩ := ((siblings_eq t hinv x hx2).2.2 c).1 hc
  have h4 : (hk t c).up < c := (hinv.1.2.2.2 c h1 h2).1
  omega

theorem subtreeListAux_stable (t : Tree) (hinv : Inv t) :
    ∀ f1 f2 x, 1 ≤ x → x < t.length → t.length - x ≤ f1 → t.length - x ≤ f2 →
      subtreeListAux t f1 x = subtreeListAux t f2 x := by
  intro f1
  induction f1 with
  | zero =>
    intro f2 x h1 h2 h3 h4
    omega
  | succ f1 ih =>
    intro f2 x h1 h2 h3 h4
    cases f2 with
    | zero => omega
    | succ f2 =>
      simp only [subtreeListAux]
      congr 1
      apply flatMap_congr_mem
      intro c hc
      obtain ⟨hc1, hc2, hc3, hc4⟩ := child_mem_facts t hinv h2 hc
      exact ih f2 c hc1 hc2 (by omega) (by omega)

theorem descList_unfold (t : Tree) (hinv : Inv t) (x : Nat) (h1 : 1 ≤ x)
    (h2 : x < t.length) :
    descList t x = x :: (siblings t ((hk t x).tail)).reverse.flatMap (descList t) := by
  have hstep : descList t x = subtreeListAux t ((t.length - 1) + 1) x := by
    unfold descList
    exact subtreeListAux_stable t hinv t.length ((t.length - 1) + 1) x h1 h2
      (by omega) (by omega)
  rw [hstep]
  simp only [subtreeListAux]
  congr 1
  apply flatMap_congr_mem
  intro c hc
  obtain ⟨hc1, hc2, hc3, hc4⟩ := child_mem_facts t hinv h2 hc
  exact subtreeListAux_stable t hinv (t.length - 1) t.length c hc1 hc2
    (by omega) (by omega)

theorem descList_facts (t : Tree) (hinv : Inv t) :
    ∀ fuel x, 1 ≤ x → x < t.length → t.length - x ≤ fuel →
      ∀ n ∈ descList t x, x ≤ n ∧ 1 ≤ n ∧ n < t.length := by
  intro fuel
  induction fuel with
  | zero =>
    intro x h1 h2 h3
    omega
  | succ fuel ih =>
    intro x h1 h2 h3 n hn
    rw [descList_unfold t hinv x h1 h2] at hn
    rcases List.mem_cons.1 hn with h0 | h0
    · omega
    · rw [List.mem_flatMap] at h0
      obtain ⟨c, hcmem, hnc⟩ := h0
      obtain ⟨hc1, hc2, hc3, hc4⟩ := child_mem_facts t hinv h2 hcmem
      have := ih c hc1 hc2 (by omega) n hnc
      omega

theorem descList_facts2 (t : Tree) (hinv : Inv t) (x : Nat) (h1 : 1 ≤ x)
    (h2 : x < t.length) : ∀ n ∈ descList t x, x ≤ n ∧ 1 ≤ n ∧ n < t.length :=
  descList_facts t hinv t.length x h1 h2 (by omega)

theorem descList_self_mem (t : Tree) (hinv : Inv t) (x : Nat) (h1 : 1 ≤ x)
    (h2 : x < t.length) : x ∈ descList t x := by
  rw [descList_unfold t hinv x h1 h2]
  exact List.mem_cons_self _ _

theorem descList_upPath (t : Tree) (hinv : Inv t) :
    ∀ fuel x, 1 ≤ x → x < t.length → t.length - x ≤ fuel →
      ∀ n ∈ descList t x, ∃ l, UpPath t n l ∧ x ∈ l := by
  intro fuel
  induction fuel with
  | zero =>
    intro x h1 h2 h3
    omega
  | succ fuel ih =>
    intro x h1 h2 h3 n hn
    rw [descList_unfold t hinv x h1 h2] at hn
    rcases List.mem_cons.1 hn with h0 | h0
    · subst h0
      obtain ⟨l, hl⟩ := upPath_exists t hinv n h2
      exact ⟨l, hl, hl.mem_self (by omega)⟩
    · rw [List.mem_flatMap] at h0
      obtain ⟨c, hcmem, hnc⟩ := h0
      obtain ⟨hc1, hc2, hc3, hc4⟩ := child_mem_facts t hinv h2 hcmem
      obtain ⟨l, hl, hcl⟩ := ih c hc1 hc2 (by omega) n hnc
      refine ⟨l, hl, ?_⟩
      have hx : (hk t c).up ∈ l := hl.up_mem hcl (by rw [hc3]; omega)
      rw [hc3] at hx
      exact hx

theorem descList_child_closed (t : Tree) (hinv : Inv t) :
    ∀ fuel x, 1 ≤ x → x < t.length → t.length - x ≤ fuel →
      ∀ p n, p ∈ descList t x → 1 ≤ n → n < t.length → (hk t n).up = p →
        n ∈ descList t x := by
  intro fuel
  induction fuel with
  | zero =>
    intro x h1 h2 h3
    omega
  | succ fuel ih =>
    intro x h1 h2 h3 p n hp hn1 hn2 hup
    rw [descList_unfold t hinv x h1 h2] at hp
    rw [descList_unfold t hinv x h1 h2]
    rcases List.mem_cons.1 hp with h0 | h0
    · subst h0
      refine List.mem_cons_of_mem _ ?_
      rw [List.mem_flatMap]
      refine ⟨n, ?_, descList_self_mem t hinv n hn1 hn2⟩
      rw [List.mem_reverse]
      exact ((siblings_eq t hinv p h2).2.2 n).2 ⟨hn1, hn2, hup⟩
    · rw [List.mem_flatMap] at h0
      obtain ⟨c, hcmem, hpc⟩ := h0
      obtain ⟨hc1, hc2, hc3, hc4⟩ := child_mem_facts t hinv h2 hcmem
      refine List.mem_cons_of_mem _ ?_
      rw [List.mem_flatMap]
      exact ⟨c, hcmem, ih c hc1 hc2 (by omega) p n hpc hn1 hn2 hup⟩

theorem descList_of_upPath (t : Tree) (hinv : Inv t) :
    ∀ n, n < t.length → ∀ x ln, 1 ≤ x → x < t.length → UpPath t n ln → x ∈ ln →
      n ∈ descList t x := by
  intro n
  induction n using Nat.strong_induction_on with
  | _ n ihn =>
    intro hn x ln hx1 hx2 hpath hxln
    cases hpath with
    | nil => simp at hxln
    | cons i l hi htl =>
      rcases List.mem_cons.1 hxln with h0 | h0
      · subst h0
        exact descList_self_mem t hinv _ hx1 hn
      · have hupn : (hk t n).up < n := (hinv.1.2.2.2 n (by omega) hn).1
        have hp0 : (hk t n).up ≠ 0 := by
          intro h00
          rw [h00] at htl
          cases htl with
          | nil => simp at h0
          | cons j l2 hj htl2 => exact absurd rfl hj
        have hpmem : (hk t n).up ∈ descList t x :=
          ihn ((hk t n).up) hupn (by omega) x l hx1 hx2 htl h0
        exact descList_child_closed t hinv t.length x hx1 hx2 (by omega)
          ((hk t n).up) n hpmem (by omega) hn rfl

theorem descList_nodup (t : Tree) (hinv : Inv t) :
    ∀ fuel x, 1 ≤ x → x < t.length → t.length - x ≤ fuel →
      (descList t x).Nodup := by
  intro fuel
  induction fuel with
  | zero =>
    intro x h1 h2 h3
    omega
  | succ fuel ih =>
    intro x h1 h2 h3
    rw [descList_unfold t hinv x h1 h2, List.nodup_cons]
    constructor
    · intro hx
      rw [List.mem_flatMap] at hx
      obtain ⟨c, hcmem, hxc⟩ := hx
      obtain ⟨hc1, hc2, hc3, hc4⟩ := child_mem_facts t hinv h2 hcmem
      have := descList_facts2 t hinv c hc1 hc2 x hxc
      omega
    · rw [List.nodup_flatMap]
      constructor
      · intro c hcmem
        obtain ⟨hc1, hc2, hc3, hc4⟩ := child_mem_facts t hinv h2 hcmem
        exact ih c hc1 hc2 (by omega)
      · have hpair : (siblings t ((hk t x).tail)).Pairwise (fun a b => b < a) :=
          (siblings_eq t hinv x h2).2.1
        have hpairrev :
            ((siblings t ((hk t x).tail)).reverse).Pairwise (fun a b => a < b) := by
          rw [List.pairwise_reverse]
          exact hpair
        refine List.Pairwise.imp_of_mem ?_ hpairrev
        intro c1 c2 hm1 hm2 hlt
        intro a ha1 ha2
        obtain ⟨hd1, hd2, hd3, hd4⟩ := child_mem_facts t hinv h2 hm1
        obtain ⟨he1, he2, he3, he4⟩ := child_mem_facts t hinv h2 hm2
        obtain ⟨fa1, fa2, fa3⟩ := descList_facts2 t hinv c1 hd1 hd2 a ha1
        obtain ⟨l, hl, hc1l⟩ :=
          descList_upPath t hinv t.length c1 hd1 hd2 (by omega) a ha1
        obtain ⟨l2, hl2, hc2l⟩ :=
          descList_upPath t hinv t.length c2 he1 he2 (by omega) a ha2
        have hll : l = l2 := hl.unique hl2
        subst hll
        obtain ⟨la, hla, hc1la⟩ := hl.step_down hinv fa3 hc2l hc1l hlt
        rw [he3] at hla
        have := hla.le_of_mem hinv h2 c1 hc1la
        omega

theorem dvisited_eq_drain (t : Tree) (hinv : Inv t) :
    ∀ fuel s v, (∀ w ∈ s, 1 ≤ w ∧ w < t.length) → v ≠ 0 →
      dvisited t (fuel + 1) (s, v) = v :: drain t fuel s := by
  intro fuel
  induction fuel with
  | zero =>
    intro s v hs hv
    show (if v = 0 then [] else v :: dvisited t 0 (dnext t (s, v))) = v :: drain t 0 s
    rw [if_neg hv]
    rfl
  | succ fuel ih =>
    intro s v hs hv
    show (if v = 0 then [] else v :: dvisited t (fuel + 1) (dnext t (s, v)))
        = v :: drain t (fuel + 1) s
    rw [if_neg hv]
    congr 1
    cases s with
    | nil =>
      show dvisited t (fuel + 1) ([], 0) = drain t (fuel + 1) []
      show (if (0 : Nat) = 0 then [] else _) = drain t (fuel + 1) []
      rw [if_pos rfl]
      rfl
    | cons w s2 =>
      show dvisited t (fuel + 1) ((siblings t ((hk t w).tail)).reverse ++ s2, w)
          = drain t (fuel + 1) (w :: s2)
      have hw := hs w (List.mem_cons_self _ _)
      have hs2 : ∀ u ∈ (siblings t ((hk t w).tail)).reverse ++ s2,
          1 ≤ u ∧ u < t.length := by
        intro u hu
        rcases List.mem_append.1 hu with h0 | h0
        · obtain ⟨a1, a2, a3, a4⟩ := child_mem_facts t hinv hw.2 h0
          exact ⟨a1, a2⟩
        · exact hs u (List.mem_cons_of_mem _ h0)
      rw [ih _ w hs2 (by omega)]
      rfl

theorem drain_adequate (t : Tree) (hinv : Inv t) :
    ∀ fuel s, (∀ w ∈ s, 1 ≤ w ∧ w < t.length) →
      (s.flatMap (descList t)).length ≤ fuel →
      drain t fuel s = s.flatMap (descList t) := by
  intro fuel
  induction fuel with
  | zero =>
    intro s hs hlen
    cases s with
    | nil => rfl
    | cons w s2 =>
      exfalso
      have hw := hs w (List.mem_cons_self _ _)
      have hm : w ∈ (w :: s2).flatMap (descList t) := by
        rw [List.flatMap_cons]
        exact List.mem_append_left _ (descList_self_mem t hinv w hw.1 hw.2)
      have := List.length_pos_of_mem hm
      omega
  | succ fuel ih =>
    intro s hs hlen
    cases s with
    | nil => rfl
    | cons w s2 =>
      have hw := hs w (List.mem_cons_self _ _)
      show w :: drain t fuel ((siblings t ((hk t w).tail)).reverse ++ s2) = _
      rw [List.flatMap_cons, descList_unfold t hinv w hw.1 hw.2, List.cons_append,
        ← List.flatMap_append]
      congr 1
      have e1 : ((w :: s2).flatMap (descList t)).length
          = (descList t w).length + (s2.flatMap (descList t)).length := by
        rw [List.flatMap_cons, List.length_append]
      have e2 : (descList t w).length
          = 1 + (((siblings t ((hk t w).tail)).reverse).flatMap (descList t)).length := by
        rw [descList_unfold t hinv w hw.1 hw.2]
        simp [Nat.add_comm]
      have e3 : ((((siblings t ((hk t w).tail)).reverse) ++ s2).flatMap (descList t)).length
          = (((siblings t ((hk t w).tail)).reverse).flatMap (descList t)).length
            + (s2.flatMap (descList t)).length := by
        rw [List.flatMap_append, List.length_append]
      apply ih
      · intro u hu
        rcases List.mem_append.1 hu with h0 | h0
        · obtain ⟨a1, a2, a3, a4⟩ := child_mem_facts t hinv hw.2 h0
          exact ⟨a1, a2⟩
        · exact hs u (List.mem_cons_of_mem _ h0)
      · omega

theorem dvisited_invalid_after (t : Tree) :
    ∀ fuel st, (dvisited t fuel st).length < fuel →
      ((dnext t)^[(dvisited t fuel st).length] st).2 = 0 := by
  intro fuel
  induction fuel with
  | zero =>
    intro st h
    omega
  | succ fuel ih =>
    intro st h
    by_cases h0 : st.2 = 0
    · have hz : dvisited t (fuel + 1) st = [] := by
        show (if st.2 = 0 then [] else _) = []
        rw [if_pos h0]
      rw [hz]
      simpa using h0
    · have heq : dvisited t (fuel + 1) st = st.2 :: dvisited t fuel (dnext t st) := by
        show (if st.2 = 0 then [] else _) = _
        rw [if_neg h0]
      rw [heq] at h ⊢
      simp only [List.length_cons]
      rw [Function.iterate_succ_apply]
      exact ih (dnext t st) (by simpa using h)

theorem descList_length_le (t : Tree) (hinv : Inv t) (x : Nat) (h1 : 1 ≤ x)
    (h2 : x < t.length) : (descList t x).length ≤ t.length :=
  nodup_length_le (descList_nodup t hinv t.length x h1 h2 (by omega))
    fun a ha => (descList_facts2 t hinv x h1 h2 a ha).2.2

/-- C8: on every tree built by a finite sequence of inserts, the
depth-first cursor started at a valid node `x` visits exactly the subtree
of `x` (the nodes whose up-path passes through `x`), each node exactly
once, and becomes invalid after exactly as many advances as the subtree
has nodes — it terminates and never revisits a node. -/
theorem c8_depth_iterator_visits_once (t : Tree) (ht : Reachable t) (x : Nat)
    (hx1 : 1 ≤ x) (hx2 : x < t.length) :
    dfsRun t x = descList t x ∧
    (descList t x).Nodup ∧
    (∀ n, n ∈ descList t x ↔ (1 ≤ n ∧ n < t.length ∧ ∃ l, UpPath t n l ∧ x ∈ l)) ∧
    ((dnext t)^[(descList t x).length] (dinit t x)).2 = 0 := by
  have hinv := reachable_inv ht
  have hkids : ∀ w ∈ (siblings t ((hk t x).tail)).reverse, 1 ≤ w ∧ w < t.length := by
    intro w hw
    obtain ⟨a1, a2, a3, a4⟩ := child_mem_facts t hinv hx2 hw
    exact ⟨a1, a2⟩
  have hlenx := descList_length_le t hinv x hx1 hx2
  have e2 : (descList t x).length
      = 1 + (((siblings t ((hk t x).tail)).reverse).flatMap (descList t)).length := by
    rw [descList_unfold t hinv x hx1 hx2]
    simp [Nat.add_comm]
  have hrun : dfsRun t x = descList t x := by
    unfold dfsRun dinit
    rw [dvisited_eq_drain t hinv t.length _ x hkids (by omega),
      drain_adequate t hinv t.length _ hkids (by omega),
      ← descList_unfold t hinv x hx1 hx2]
  refine ⟨hrun, descList_nodup t hinv t.length x hx1 hx2 (by omega), ?_, ?_⟩
  · intro n
    constructor
    · intro hn
      obtain ⟨a1, a2, a3⟩ := descList_facts2 t hinv x hx1 hx2 n hn
      obtain ⟨l, hl, hxl⟩ := descList_upPath t hinv t.length x hx1 hx2 (by omega) n hn
      exact ⟨a2, a3, l, hl, hxl⟩
    · rintro ⟨hn1, hn2, l, hl, hxl⟩
      exact descList_of_upPath t hinv n hn2 x l hx1 hx2 hl hxl
  · have hterm := dvisited_invalid_after t (t.length + 1) (dinit t x) ?_
    · have hdv : dvisited t (t.length + 1) (dinit t x) = descList t x := hrun
      rw [hdv] at hterm
      exact hterm
    · have hdv : dvisited t (t.length + 1) (dinit t x) = descList t x := hrun
      rw [hdv]
      omega

/-- Witness for C8: the cursor on the concrete two-node tree. -/
theorem c8_depth_iterator_visits_once_witness :
    dfsRun chainTree2 1 = descList chainTree2 1 ∧
    (descList chainTree2 1).Nodup ∧
    (∀ n, n ∈ descList chainTree2 1 ↔
      (1 ≤ n ∧ n < chainTree2.length ∧ ∃ l, UpPath chainTree2 n l ∧ 1 ∈ l)) ∧
    ((dnext chainTree2)^[(descList chainTree2 1).length] (dinit chainTree2 1)).2 = 0 :=
  c8_depth_iterator_visits_once chainTree2
    (Reachable.step (emplaceT mkTree 0) 1
      (Reachable.step mkTree 0 Reachable.mk (by decide)) (by decide))
    1 (by decide) (by decide)

/-- Normal form of one linking step: the child slot gets `up`/`prev`, the
parent slot gets the new `tail` and incremented `fan`. -/
theorem clink_eq (t : Tree) (cid pid : Nat) (hcid : cid < t.length)
    (hpid : pid < t.length) (hne : cid ≠ pid) :
    cstep t (.link cid pid) =
      setHk (setHk t cid { hk t cid with up := pid, prev := (hk t pid).tail }) pid
        { hk t pid with tail := cid, fan := (hk t pid).fan + 1 } := by
  have hne2 : pid ≠ cid := Ne.symm hne
  apply List.ext_getElem?
  intro i
  by_cases h1 : i = cid
  · subst h1
    simp [cstep, setHk, hk, List.getD_eq_getElem?_getD, List.getElem?_set, hcid, hpid,
      hne, hne2]
  · by_cases h2 : i = pid
    · subst h2
      simp [cstep, setHk, hk, List.getD_eq_getElem?_getD, List.getElem?_set, hcid, hpid,
        hne, hne2]
    · have h1s : cid ≠ i := Ne.symm h1
      have h2s : pid ≠ i := Ne.symm h2
      simp [cstep, setHk, hk, List.getD_eq_getElem?_getD, List.getElem?_set, h1s, h2s]

theorem cstep_link_length (t : Tree) (cid pid : Nat) :
    (cstep t (.link cid pid)).length = t.length := by
  simp [cstep, setHk]

theorem hk_clink_child (t : Tree) (cid pid : Nat) (hcid : cid < t.length)
    (hpid : pid < t.length) (hne : cid ≠ pid) :
    hk (cstep t (.link cid pid)) cid =
      { hk t cid with up := pid, prev := (hk t pid).tail } := by
  rw [clink_eq t cid pid hcid hpid hne, hk_set_ne _ _ _ _ hne, hk_set_self]
  omega

theorem hk_clink_parent (t : Tree) (cid pid : Nat) (hcid : cid < t.length)
    (hpid : pid < t.length) (hne : cid ≠ pid) :
    hk (cstep t (.link cid pid)) pid =
      { hk t pid with tail := cid, fan := (hk t pid).fan + 1 } := by
  rw [clink_eq t cid pid hcid hpid hne, hk_set_self]
  simp [setHk]
  omega

theorem hk_clink_other (t : Tree) (cid pid : Nat) (hcid : cid < t.length)
    (hpid : pid < t.length) (hne : cid ≠ pid) (i : Nat) (h1 : i ≠ cid) (h2 : i ≠ pid) :
    hk (cstep t (.link cid pid)) i = hk t i := by
  rw [clink_eq t cid pid hcid hpid hne, hk_set_ne _ _ _ _ h2, hk_set_ne _ _ _ _ h1]

theorem up_prev_agree_clink (t : Tree) (cid pid : Nat) (hcid : cid < t.length)
    (hpid : pid < t.length) (hne : cid ≠ pid) (i : Nat) (hi : i ≠ cid) :
    (hk (cstep t (.link cid pid)) i).up = (hk t i).up ∧
    (hk (cstep t (.link cid pid)) i).prev = (hk t i).prev := by
  by_cases h2 : i = pid
  · subst h2
    rw [hk_clink_parent t cid i hcid hpid hne]
    exact ⟨rfl, rfl⟩
  · rw [hk_clink_other t cid pid hcid hpid hne i hi h2]
    exact ⟨rfl, rfl⟩

theorem cinv_alloc (t : Tree) (pending : List Nat) (hinv : CInv t pending) :
    CInv (cstep t .alloc) (pending ++ [t.length]) := by
  obtain ⟨h2len, hupb, hpend, hnd, hsib⟩ := hinv
  have hlen : (cstep t .alloc).length = t.length + 1 := by simp [cstep]
  have hother : ∀ i, i < t.length → hk (cstep t .alloc) i = hk t i := fun i hi =>
    hk_append_lt t Hook.dflt i hi
  have hnew : hk (cstep t .alloc) t.length = Hook.dflt := hk_append_self t Hook.dflt
  refine ⟨by omega, ?_, ?_, ?_, ?_⟩
  · intro i hi
    rw [hlen] at hi
    by_cases h0 : i = t.length
    · subst h0
      rw [hnew, hlen]
      show 0 < t.length + 1
      omega
    · rw [hlen, hother i (by omega)]
      have := hupb i (by omega)
      omega
  · intro i hi
    rcases List.mem_append.1 hi with h0 | h0
    · obtain ⟨a1, a2, a3, a4⟩ := hpend i h0
      rw [hlen, hother i a2]
      exact ⟨a1, by omega, a3, a4⟩
    · have h0 : i = t.length := by simpa using h0
      subst h0
      rw [hlen, hnew]
      exact ⟨h2len, by omega, rfl, rfl⟩
  · rw [List.nodup_append]
    refine ⟨hnd, List.nodup_singleton _, ?_⟩
    intro a ha hb
    have hb2 : a = t.length := by simpa using hb
    obtain ⟨a1, a2, a3, a4⟩ := hpend a ha
    omega
  · intro p hp
    rw [hlen] at hp
    by_cases h0 : p = t.length
    · subst h0
      refine ⟨[], ?_, by rw [hnew]; rfl, List.nodup_nil, ?_⟩
      · rw [hnew]
        exact PrevChain.nil
      · intro i
        simp only [List.not_mem_nil, false_iff]
        rintro ⟨b1, b2, b3, b4⟩
        rw [hlen] at b2
        by_cases hi0 : i = t.length
        · subst hi0
          rw [hnew] at b4
          simp [Hook.dflt] at b4
          omega
        · rw [hother i (by omega)] at b4
          have := hupb i (by omega)
          omega
    · have hp2 : p < t.length := by omega
      obtain ⟨l, hc, hflen, hlnd, hmem⟩ := hsib p hp2
      have hlsm : ∀ i ∈ l, i < t.length := fun i hi => ((hmem i).1 hi).2.1
      refine ⟨l, ?_, ?_, hlnd, ?_⟩
      · rw [hother p hp2]
        exact hc.lift fun i hi => by rw [hother i (hlsm i hi)]; exact ⟨rfl, rfl⟩
      · rw [hother p hp2]
        exact hflen
      · intro i
        constructor
        · intro hi
          obtain ⟨b1, b2, b3, b4⟩ := (hmem i).1 hi
          rw [hlen, hother i b2]
          refine ⟨b1, by omega, ?_, b4⟩
          rw [List.mem_append]
          rintro (hx | hx)
          · exact b3 hx
          · have : i = t.length := by simpa using hx
            omega
        · rintro ⟨b1, b2, b3, b4⟩
          rw [hlen] at b2
          by_cases hi0 : i = t.length
          · subst hi0
            exfalso
            apply b3
            rw [List.mem_append]
            right
            simp
          · rw [hother i (by omega)] at b4
            refine (hmem i).2 ⟨b1, by omega, ?_, b4⟩
            intro hx
            exact b3 (List.mem_append.2 (Or.inl hx))

theorem cinv_link (t : Tree) (pending : List Nat) (cid pid : Nat)
    (hinv : CInv t pending) (hcp : cid ∈ pending) (hp1 : 1 ≤ pid) (hplt : pid < cid) :
    CInv (cstep t (.link cid pid)) (pending.erase cid) := by
  obtain ⟨h2len, hupb, hpend, hnd, hsib⟩ := hinv
  obtain ⟨hc2, hclen, hcup, hcprev⟩ := hpend cid hcp
  have hpidlen : pid < t.length := by omega
  have hne : cid ≠ pid := by omega
  have hlen := cstep_link_length t cid pid
  have hchild := hk_clink_child t cid pid hclen hpidlen hne
  have hparent := hk_clink_parent t cid pid hclen hpidlen hne
  have hagree := up_prev_agree_clink t cid pid hclen hpidlen hne
  refine ⟨by omega, ?_, ?_, hnd.erase cid, ?_⟩
  · intro i hi
    rw [hlen] at hi
    by_cases h0 : i = cid
    · subst h0
      rw [hchild]
      show pid < (cstep t (CEvent.link i pid)).length
      rw [hlen]
      omega
    · rw [hlen, (hagree i h0).1]
      exact hupb i hi
  · intro i hi
    have hi2 : i ≠ cid ∧ i ∈ pending := (List.Nodup.mem_erase_iff hnd).1 hi
    obtain ⟨a1, a2, a3, a4⟩ := hpend i hi2.2
    rw [hlen, (hagree i hi2.1).1, (hagree i hi2.1).2]
    exact ⟨a1, a2, a3, a4⟩
  · intro p hp
    rw [hlen] at hp
    by_cases h0 : p = pid
    · -- the linked child joins the head of its parent's list
      subst h0
      obtain ⟨l, hc, hflen, hlnd, hmem⟩ := hsib p hpidlen
      have hlnotc : cid ∉ l := by
        intro hx
        exact ((hmem cid).1 hx).2.2.1 hcp
      have hlsm : ∀ i ∈ l, i < t.length := fun i hi => ((hmem i).1 hi).2.1
      have hlift : PrevChain (cstep t (.link cid p)) p ((hk t p).tail) l :=
        hc.lift fun i hi => hagree i (by rintro rfl; exact hlnotc hi)
      refine ⟨cid :: l, ?_, ?_, ?_, ?_⟩
      · rw [hparent]
        refine PrevChain.cons cid l (by omega) ?_ ?_
        · rw [hchild]
        · rw [hchild]
          exact hlift
      · rw [hparent]
        simp [hflen]
      · exact List.nodup_cons.2 ⟨hlnotc, hlnd⟩
      · intro i
        constructor
        · intro hi
          rcases List.mem_cons.1 hi with h1 | h1
          · subst h1
            refine ⟨by omega, by omega, ?_, by rw [hchild]⟩
            intro hx
            exact ((List.Nodup.mem_erase_iff hnd).1 hx).1 rfl
          · obtain ⟨b1, b2, b3, b4⟩ := (hmem i).1 h1
            have hic : i ≠ cid := by rintro rfl; exact hlnotc h1
            rw [hlen, (hagree i hic).1]
            refine ⟨b1, b2, ?_, b4⟩
            intro hx
            exact b3 (((List.Nodup.mem_erase_iff hnd).1 hx).2)
        · rintro ⟨b1, b2, b3, b4⟩
          by_cases hic : i = cid
          · subst hic
            exact List.mem_cons_self _ _
          · refine List.mem_cons_of_mem _ ?_
            rw [(hagree i hic).1] at b4
            refine (hmem i).2 ⟨b1, by omega, ?_, b4⟩
            intro hx
            exact b3 ((List.Nodup.mem_erase_iff hnd).2 ⟨hic, hx⟩)
    · -- all other nodes keep their lists
      have hp2 : p < t.length := by omega
      obtain ⟨l, hc, hflen, hlnd, hmem⟩ := hsib p hp2
      have hlnotc : cid ∉ l := by
        intro hx
        exact ((hmem cid).1 hx).2.2.1 hcp
      have htailfan : (hk (cstep t (.link cid pid)) p).tail = (hk t p).tail ∧
          (hk (cstep t (.link cid pid)) p).fan = (hk t p).fan := by
        by_cases hpc : p = cid
        · subst hpc
          rw [hchild]
          exact ⟨rfl, rfl⟩
        · rw [hk_clink_other t cid pid hclen hpidlen hne p hpc h0]
          exact ⟨rfl, rfl⟩
      refine ⟨l, ?_, ?_, hlnd, ?_⟩
      · rw [htailfan.1]
        exact hc.lift fun i hi => hagree i (by rintro rfl; exact hlnotc hi)
      · rw [htailfan.2]
        exact hflen
      · intro i
        constructor
        · intro hi
          obtain ⟨b1, b2, b3, b4⟩ := (hmem i).1 hi
          have hic : i ≠ cid := by rintro rfl; exact hlnotc hi
          rw [hlen, (hagree i hic).1]
          exact ⟨b1, b2, fun hx => b3 (((List.Nodup.mem_erase_iff hnd).1 hx).2), b4⟩
        · rintro ⟨b1, b2, b3, b4⟩
          by_cases hic : i = cid
          · subst hic
            exfalso
            rw [hchild] at b4
            simp at b4
            exact h0 b4.symm
          · rw [(hagree i hic).1] at b4
            refine (hmem i).2 ⟨b1, by rw [hlen] at b2; omega, ?_, b4⟩
            intro hx
            exact b3 ((List.Nodup.mem_erase_iff hnd).2 ⟨hic, hx⟩)

/-- The starting tree of the concurrent scenario: sentinel plus the root
(`concurrent_rooted_tree tree ( 1 )`). -/
theorem cinv_init : CInv (emplaceT mkTree 0) [] := by
  refine ⟨by decide, by decide, by simp, List.nodup_nil, ?_⟩
  intro p hp
  have hp2 : p < 2 := by
    have : (emplaceT mkTree 0).length = 2 := by decide
    omega
  interval_cases p
  · refine ⟨[1], ?_, by decide, by decide, ?_⟩
    · have h1 : (hk (emplaceT mkTree 0) 0).tail = 1 := by decide
      rw [h1]
      refine PrevChain.cons 1 [] (by decide) (by decide) ?_
      have h2 : (hk (emplaceT mkTree 0) 1).prev = 0 := by decide
      rw [h2]
      exact PrevChain.nil
    · intro i
      constructor
      · intro hi
        have hi1 : i = 1 := by simpa using hi
        subst hi1
        exact ⟨by decide, by decide, by simp, by decide⟩
      · rintro ⟨b1, b2, b3, b4⟩
        have hlen2 : (emplaceT mkTree 0).length = 2 := by decide
        rw [hlen2] at b2
        have : i = 1 := by omega
        simp [this]
  · refine ⟨[], ?_, by decide, List.nodup_nil, ?_⟩
    · have h1 : (hk (emplaceT mkTree 0) 1).tail = 0 := by decide
      rw [h1]
      exact PrevChain.nil
    · intro i
      simp only [List.not_mem_nil, false_iff]
      rintro ⟨b1, b2, b3, b4⟩
      have hlen2 : (emplaceT mkTree 0).length = 2 := by decide
      rw [hlen2] at b2
      have : i = 1 := by omega
      subst this
      revert b4
      decide

theorem cinv_run : ∀ (es : List CEvent) (t : Tree) (pending : List Nat),
    CWF t.length pending es → CInv t pending →
    CInv (crun t es) [] ∧ (crun t es).length = t.length + allocCount es := by
  intro es
  induction es with
  | nil =>
    intro t pending hwf hinv
    have hp : pending = [] := hwf
    subst hp
    exact ⟨hinv, by simp [crun, allocCount]⟩
  | cons e es ih =>
    intro t pending hwf hinv
    cases e with
    | alloc =>
      have hwf2 : CWF (t.length + 1) (pending ++ [t.length]) es := hwf
      have hstep := cinv_alloc t pending hinv
      have hlen : (cstep t .alloc).length = t.length + 1 := by simp [cstep]
      have hrec := ih (cstep t .alloc) (pending ++ [t.length])
        (by rw [hlen]; exact hwf2) hstep
      refine ⟨hrec.1, ?_⟩
      show (crun (cstep t CEvent.alloc) es).length = t.length + allocCount (CEvent.alloc :: es)
      rw [hrec.2, hlen]
      show t.length + 1 + allocCount es = t.length + (allocCount es + 1)
      omega
    | link cid pid =>
      obtain ⟨hcp, hp1, hplt, hwf2⟩ := hwf
      have hstep := cinv_link t pending cid pid hinv hcp hp1 hplt
      have hlen := cstep_link_length t cid pid
      have hrec := ih (cstep t (.link cid pid)) (pending.erase cid)
        (by rw [hlen]; exact hwf2) hstep
      refine ⟨hrec.1, ?_⟩
      show (crun (cstep t (CEvent.link cid pid)) es).length
          = t.length + allocCount (CEvent.link cid pid :: es)
      rw [hrec.2, hlen]
      rfl

/-- C7: after any well-formed interleaving of N producers each inserting K
nodes into the concurrent tree (every insert allocating its slot before
linking it, under an existing non-sentinel parent), the store holds
1 + 1 + N·K nodes (sentinel + root + children) and the sibling-list
invariant holds for every parent: the prev-walk from each parent's `tail`
reaches the invalid id after exactly `fan` steps, every visited node's
`up` is that parent, and every non-sentinel node appears exactly once in
its parent's walk. -/
theorem c7_concurrent_grow (N K : Nat) (es : List CEvent)
    (hwf : CWF 2 [] es) (hcount : allocCount es = N * K) :
    (crun (emplaceT mkTree 0) es).length = 1 + 1 + N * K ∧
    (∀ p, p < (crun (emplaceT mkTree 0) es).length →
      iterPrev (crun (emplaceT mkTree 0) es)
          ((hk (crun (emplaceT mkTree 0) es) p).fan)
          ((hk (crun (emplaceT mkTree 0) es) p).tail) = 0 ∧
      ∀ k, k < (hk (crun (emplaceT mkTree 0) es) p).fan →
        iterPrev (crun (emplaceT mkTree 0) es) k
            ((hk (crun (emplaceT mkTree 0) es) p).tail) ≠ 0 ∧
        (hk (crun (emplaceT mkTree 0) es)
            (iterPrev (crun (emplaceT mkTree 0) es) k
              ((hk (crun (emplaceT mkTree 0) es) p).tail))).up = p) ∧
    (∀ n, 1 ≤ n → n < (crun (emplaceT mkTree 0) es).length →
      ∃! k, k < (hk (crun (emplaceT mkTree 0) es)
            ((hk (crun (emplaceT mkTree 0) es) n).up)).fan ∧
        iterPrev (crun (emplaceT mkTree 0) es) k
          ((hk (crun (emplaceT mkTree 0) es)
            ((hk (crun (emplaceT mkTree 0) es) n).up)).tail) = n) := by
  have hrun := cinv_run es (emplaceT mkTree 0) []
    (by rw [show (emplaceT mkTree 0).length = 2 from by decide]; exact hwf) cinv_init
  obtain ⟨⟨h2len, hupb, hpend, hnd0, hsib⟩, hlen⟩ := hrun
  refine ⟨by rw [hlen, hcount, show (emplaceT mkTree 0).length = 2 from by decide],
    ?_, ?_⟩
  · intro p hp
    obtain ⟨l, hc, hflen, hlnd, hmem⟩ := hsib p hp
    constructor
    · rw [← hflen]
      exact hc.iterPrev_length
    · intro k hk2
      rw [← hflen] at hk2
      rw [hc.iterPrev_getElem k hk2]
      have hmem2 : l[k] ∈ l := List.getElem_mem hk2
      obtain ⟨b1, b2, b3, b4⟩ := (hmem _).1 hmem2
      exact ⟨by omega, b4⟩
  · intro n hn1 hn2
    have hupn : (hk (crun (emplaceT mkTree 0) es) n).up
        < (crun (emplaceT mkTree 0) es).length := hupb n hn2
    obtain ⟨l, hc, hflen, hlnd, hmem⟩ := hsib _ hupn
    have hnl : n ∈ l := (hmem n).2 ⟨hn1, hn2, by simp, rfl⟩
    obtain ⟨k, hklt, hkeq⟩ := List.getElem_of_mem hnl
    refine ⟨k, ⟨by omega, by rw [hc.iterPrev_getElem k hklt]; exact hkeq⟩, ?_⟩
    rintro k2 ⟨hk2lt, hk2eq⟩
    rw [← hflen] at hk2lt
    rw [hc.iterPrev_getElem k2 hk2lt] at hk2eq
    have heq2 : l[k2] = l[k] := by rw [hk2eq, hkeq]
    exact (List.Nodup.getElem_inj_iff hlnd).mp heq2

/-- Witness for C7: one producer inserting one node (allocate slot 2, then
link it under the root). -/
theorem c7_concurrent_grow_witness :
    (crun (emplaceT mkTree 0) [CEvent.alloc, CEvent.link 2 1]).length = 1 + 1 + 1 * 1 ∧
    (∀ p, p < (crun (emplaceT mkTree 0) [CEvent.alloc, CEvent.link 2 1]).length →
      iterPrev (crun (emplaceT mkTree 0) [CEvent.alloc, CEvent.link 2 1])
          ((hk (crun (emplaceT mkTree 0) [CEvent.alloc, CEvent.link 2 1]) p).fan)
          ((hk (crun (emplaceT mkTree 0) [CEvent.alloc, CEvent.link 2 1]) p).tail) = 0 ∧
      ∀ k, k < (hk (crun (emplaceT mkTree 0) [CEvent.alloc, CEvent.link 2 1]) p).fan →
        iterPrev (crun (emplaceT mkTree 0) [CEvent.alloc, CEvent.link 2 1]) k
            ((hk (crun (emplaceT mkTree 0) [CEvent.alloc, CEvent.link 2 1]) p).tail) ≠ 0 ∧
        (hk (crun (emplaceT mkTree 0) [CEvent.alloc, CEvent.link 2 1])
            (iterPrev (crun (emplaceT mkTree 0) [CEvent.alloc, CEvent.link 2 1]) k
              ((hk (crun (emplaceT mkTree 0) [CEvent.alloc, CEvent.link 2 1]) p).tail))).up
          = p) ∧
    (∀ n, 1 ≤ n → n < (crun (emplaceT mkTree 0) [CEvent.alloc, CEvent.link 2 1]).length →
      ∃! k, k < (hk (crun (emplaceT mkTree 0) [CEvent.alloc, CEvent.link 2 1])
            ((hk (crun (emplaceT mkTree 0) [CEvent.alloc, CEvent.link 2 1]) n).up)).fan ∧
        iterPrev (crun (emplaceT mkTree 0) [CEvent.alloc, CEvent.link 2 1]) k
          ((hk (crun (emplaceT mkTree 0) [CEvent.alloc, CEvent.link 2 1])
            ((hk (crun (emplaceT mkTree 0) [CEvent.alloc, CEvent.link 2 1]) n).up)).tail)
          = n) :=
  c7_concurrent_grow 1 1 [CEvent.alloc, CEvent.link 2 1]
    (show CWF 3 [2] [CEvent.link 2 1] from ⟨by decide, by decide, by decide, rfl⟩) rfl

end RootedTree
